import Mathlib

/-!
# FTQ / FWQ sampling engine

A shallow embedding of `ftq.c` (fixed time quantum) and `fwq.c` (fixed work
quantum): the per-thread sampling cores, the option validation of the two
`main` functions and the layout of the sample buffer.

Conventions of the embedding (LP64):
* `unsigned long`, `unsigned long long` and `ticks` are naturals reduced
  modulo `2 ^ 64`; `int` is an integer, converted with `int_to_ulong` and
  `ulong_to_int` where the source converts;
* `getticks()` is a per-thread oracle `clock : Nat → Nat`: the `k`-th call
  made by the thread returns `clock k`; the state counts the calls made;
* `while` loops that wait on the timer or count towards zero take fuel and
  return `none` when it runs out;
* the stores `samples[e] = v` of a core are logged in program order.
-/

namespace FWQ

/-! ## Machine integers -/

/-- Number of values of a 64-bit unsigned integer. -/
def U64 : Nat := 2 ^ 64

/-- Conversion of an `int` to `unsigned long`. -/
def int_to_ulong (v : Int) : Nat := (v % (2 ^ 64 : Int)).toNat

/-- Conversion of an `unsigned long` to `int`: the low 32 bits, read as two's
complement. -/
def ulong_to_int (x : Nat) : Int :=
  if x % 2 ^ 32 < 2 ^ 31 then ((x % 2 ^ 32 : Nat) : Int)
  else ((x % 2 ^ 32 : Nat) : Int) - 2 ^ 32

/-- The expression `1 << bits` on `int`: defined only when the result fits. -/
def shl_one (bits : Int) : Option Int :=
  if 0 ≤ bits ∧ bits < 31 then some (2 ^ bits.toNat) else none

/-- Unsigned 64-bit subtraction `a - b`. -/
def u64_sub (a b : Nat) : Nat := (a % U64 + U64 - b % U64) % U64

/-- Diagnostics written to the standard error stream. -/
inductive Msg
  | count_exceeds_maximum
  | count_below_minimum
  | bits_invalid (set_to : Int)
  | threads_required
  | no_stdout_with_threads
  | no_pthreads_support
  | usage
  | perror_setaffinity
  | failed_to_set_affinity (thread : Int)
  | assertion_failed
  | create_failed
  | join_failed
  | cannot_create_file
deriving DecidableEq, Repr

/-- How a run of `main` ends. -/
inductive Outcome
  | exit_success
  | exit_failure
  | abort
deriving DecidableEq, Repr

/-- Command line options as delivered by `getopt_long`, numeric arguments
already converted by `atoi`. -/
inductive Opt
  | t (v : Int)
  | s
  | o (name : String)
  | i (v : Int)
  | w (v : Int)
  | n (v : Int)
  | h
deriving DecidableEq, Repr

/-- Observable steps of `main`, in program order. -/
inductive Event
  | diag (m : Msg)
  | malloc_samples (bytes : Nat)
  | set_affinity
  | malloc_threads (bytes : Nat)
  | create (i : Nat)
  | core (i : Nat)
  | join (i : Nat)
  | free_threads
  | print (cells : List Nat)
  | open_times (j : Nat)
  | open_counts (j : Nat)
  | line (cell : Nat)
  | free_samples
  | set_length (v : Option Int)
deriving DecidableEq, Repr

/-- What `main` did and how it ended. -/
structure Trace where
  events : List Event
  outcome : Outcome
deriving DecidableEq, Repr

/-- The parts of a run decided outside the program. -/
structure Env where
  /-- whether the program was built with `_WITH_PTHREADS_` -/
  with_pthreads : Bool
  /-- whether `malloc` of the sample buffer returned a non-null pointer -/
  samples_ok : Bool
  /-- whether `malloc` of the thread handles returned a non-null pointer -/
  threads_ok : Bool
  /-- whether `pthread_create` of thread `i` returned zero -/
  create_ok : Nat → Bool
  /-- whether `pthread_join` of thread `i` returned zero -/
  join_ok : Nat → Bool
  /-- whether the times file of thread `j` could be created -/
  times_ok : Nat → Bool
  /-- whether the counts file of thread `j` could be created -/
  counts_ok : Nat → Bool
  /-- value returned by the affinity call that core `i` makes on entry
  (`pthread_setaffinity_np` in `ftq_core`, `sched_setaffinity` in `fwq_core`) -/
  bind_ret : Nat → Int

/-- One store `samples[cell] = value`. -/
structure Store where
  cell : Nat
  value : Nat
deriving DecidableEq, Repr

/-- Buffer contents after a sequence of stores (later stores win). -/
def apply_stores (mem : Nat → Nat) : List Store → Nat → Nat
  | [], c => mem c
  | s :: rest, c => apply_stores (fun x => if x = s.cell then s.value else mem x) rest c

/-! ## Code common to both programs

The thread handling of the two `main` functions is the same text, with
`ftq_core` in one file and `fwq_core` in the other. -/

/-- The loop creating threads `1 .. numthreads - 1` (ftq.c lines 314-321,
fwq.c lines 468-475); the flag tells whether every creation succeeded. -/
def create_all (env : Env) : List Nat → List Event × Bool
  | [] => ([], true)
  | i :: rest =>
    if env.create_ok i then
      let r := create_all env rest
      (Event.create i :: r.1, r.2)
    else ([Event.create i, Event.diag Msg.create_failed], false)

/-- The loop joining threads `1 .. numthreads - 1` (ftq.c lines 324-330,
fwq.c lines 478-484). -/
def join_all (env : Env) : List Nat → List Event × Bool
  | [] => ([], true)
  | i :: rest =>
    if env.join_ok i then
      let r := join_all env rest
      (Event.join i :: r.1, r.2)
    else ([Event.join i, Event.diag Msg.join_failed], false)

/-- The sampling phase when every core returns to its caller, as `ftq_core`
always does (ftq.c lines 305-336): the events and whether `main` goes on to the
output phase (`none`) or ends here. -/
def sampling (env : Env) (numthreads : Int) (use_threads : Bool) :
    List Event × Option Outcome :=
  if use_threads then
    if env.with_pthreads then
      let alloc := [Event.set_affinity,
        Event.malloc_threads ((8 * int_to_ulong numthreads) % U64)]
      if env.threads_ok then
        let c := create_all env (List.range' 1 (numthreads.toNat - 1))
        if c.2 then
          let j := join_all env (List.range' 1 (numthreads.toNat - 1))
          if j.2 then (alloc ++ c.1 ++ [Event.core 0] ++ j.1 ++ [Event.free_threads], none)
          else (alloc ++ c.1 ++ [Event.core 0] ++ j.1, some Outcome.exit_failure)
        else (alloc ++ c.1, some Outcome.exit_failure)
      else (alloc ++ [Event.diag Msg.assertion_failed], some Outcome.abort)
    else ([], none)
  else ([Event.core 0], none)

/-! ## ftq.c -/

namespace Ftq

def MAX_SAMPLES : Nat := 2000000
def DEFAULT_COUNT : Nat := 10000
def DEFAULT_BITS : Int := 20
def MAX_BITS : Int := 30
def MIN_BITS : Int := 3

/-- The two stores of one sample (lines 132-133 and 166-167). -/
structure Sample where
  ts_cell : Nat
  ts : Nat
  cnt_cell : Nat
  cnt : Nat
deriving DecidableEq, Repr

/-- The stores of a sample in program order. -/
def Sample.stores (s : Sample) : List Store := [⟨s.ts_cell, s.ts⟩, ⟨s.cnt_cell, s.cnt⟩]

/-- Local variables of `ftq_core` that live across iterations, the number of
`getticks()` calls made and the samples stored in the current pass. -/
structure CoreState where
  last : Nat
  endinterval : Nat
  done : Nat
  calls : Nat
  stored : List Sample
deriving DecidableEq, Repr

/-- The increment of the work count in the body of the inner loop:
`count++` without `MULTIITER`, else `ITERCOUNT` increments followed by
`ITERCOUNT - 1` decrements (on `unsigned long long`). -/
def work_unit (itercount : Option Nat) (count : Nat) : Nat :=
  match itercount with
  | none => (count + 1) % U64
  | some m =>
    Nat.iterate (fun c => (c + U64 - 1) % U64) (m - 1)
      (Nat.iterate (fun c => (c + 1) % U64) m count)

/-- The inner loop `for (now = last; now < endinterval; )`: returns the work
count and the number of timer calls made so far. -/
def spin (clock : Nat → Nat) (itercount : Option Nat) (endinterval : Nat) :
    Nat → Nat → Nat → Nat → Option (Nat × Nat)
  | 0, now, count, calls => if now < endinterval then none else some (count, calls)
  | fuel + 1, now, count, calls =>
    if now < endinterval then
      spin clock itercount endinterval fuel (clock calls) (work_unit itercount count) (calls + 1)
    else some (count, calls)

/-- The expression `(last + interval_length) & (~(interval_length - 1))`. -/
def boundary (last interval_length : Nat) : Nat :=
  ((last + interval_length) % U64) &&& (U64 - 1 - (interval_length + U64 - 1) % U64)

/-- The expression `offset = thread_num * numsamples * 2`, an `int`. -/
def offset (thread_num : Int) (numsamples : Nat) : Int :=
  ulong_to_int ((int_to_ulong thread_num * numsamples * 2) % U64)

/-- Index `(done*2)+offset` of the timestamp cell. -/
def ts_index (thread_num : Int) (numsamples done : Nat) : Nat :=
  (done * 2 + int_to_ulong (offset thread_num numsamples)) % U64

/-- Index `(done*2)+1+offset` of the count cell. -/
def cnt_index (thread_num : Int) (numsamples done : Nat) : Nat :=
  (done * 2 + 1 + int_to_ulong (offset thread_num numsamples)) % U64

/-- One measured interval: reset the count, spin to the boundary, store the
sample, `done++` (lines 117-135 and 151-169). -/
def take_sample (clock : Nat → Nat) (itercount : Option Nat) (thread_num : Int)
    (numsamples fuel : Nat) (st : CoreState) : Option CoreState :=
  match spin clock itercount st.endinterval fuel st.last 0 st.calls with
  | none => none
  | some (count, calls) =>
    some { st with
      calls := calls
      done := st.done + 1
      stored := st.stored ++
        [⟨ts_index thread_num numsamples st.done, st.last,
          cnt_index thread_num numsamples st.done, count⟩] }

/-- Start of the next interval: `last = getticks()` and the new boundary. -/
def refresh (clock : Nat → Nat) (interval_length : Nat) (st : CoreState) : CoreState :=
  { st with
    last := clock st.calls
    calls := st.calls + 1
    endinterval := boundary (clock st.calls) interval_length }

/-- The warm-up loop `for (i = 0; i < 1000; i++)`, with `remaining = 1000 - i`. -/
def warmup (clock : Nat → Nat) (itercount : Option Nat) (interval_length : Nat)
    (thread_num : Int) (numsamples fuel : Nat) : Nat → CoreState → Option CoreState
  | 0, st => some st
  | remaining + 1, st =>
    match take_sample clock itercount thread_num numsamples fuel st with
    | none => none
    | some st1 =>
      if st1.done ≥ numsamples then some st1
      else warmup clock itercount interval_length thread_num numsamples fuel remaining
        (refresh clock interval_length st1)

/-- The sampling loop `while (1)`; the first argument bounds its iterations. -/
def steady (clock : Nat → Nat) (itercount : Option Nat) (interval_length : Nat)
    (thread_num : Int) (numsamples fuel : Nat) : Nat → CoreState → Option CoreState
  | 0, _ => none
  | iters + 1, st =>
    match take_sample clock itercount thread_num numsamples fuel st with
    | none => none
    | some st1 =>
      if st1.done ≥ numsamples then some st1
      else steady clock itercount interval_length thread_num numsamples fuel iters
        (refresh clock interval_length st1)

/-- Result of a call of `ftq_core` that returned. -/
structure CoreRun where
  /-- diagnostics of the affinity call -/
  stderr : List Msg
  /-- samples stored by the warm-up pass, in order -/
  warm : List Sample
  /-- samples stored by the sampling pass, in order -/
  steady : List Sample
  /-- timer calls made -/
  calls : Nat
deriving DecidableEq, Repr

/-- The function `ftq_core`. `bind_ret` is the value returned by
`pthread_setaffinity_np` (`none` in a build without threads); `fuel` bounds
each waiting loop and the number of sampling iterations. -/
def ftq_core (bind_ret : Option Int) (clock : Nat → Nat) (itercount : Option Nat)
    (interval_length : Nat) (numsamples : Nat) (thread_num : Int) (fuel : Nat) :
    Option CoreRun :=
  let stderr : List Msg :=
    match bind_ret with
    | some r => if r < 0 then [Msg.perror_setaffinity] else []
    | none => []
  let last := clock 0
  let st0 : CoreState :=
    { last := last, endinterval := boundary last interval_length, done := 0, calls := 1,
      stored := [] }
  match warmup clock itercount interval_length thread_num numsamples fuel 1000 st0 with
  | none => none
  | some st1 =>
    match steady clock itercount interval_length thread_num numsamples fuel fuel
        { st1 with done := 0, stored := [] } with
    | none => none
    | some st2 =>
      some { stderr := stderr, warm := st1.stored, steady := st2.stored, calls := st2.calls }

/-- Option values collected by the `getopt_long` loop of `main`. -/
structure Args where
  numsamples : Nat
  interval_bits : Int
  numthreads : Int
  use_threads : Bool
  use_stdout : Bool
  outname : String
deriving DecidableEq, Repr

/-- Initial values of the globals and locals that options overwrite. -/
def Args.initial : Args :=
  { numsamples := DEFAULT_COUNT, interval_bits := DEFAULT_BITS, numthreads := 1,
    use_threads := false, use_stdout := false, outname := "ftq" }

/-- The option loop of `main` (lines 227-271); an error is the diagnostics
printed before `exit(EXIT_FAILURE)`. -/
def parse (with_pthreads : Bool) : List Opt → Args → Except (List Event) Args
  | [], a => .ok a
  | Opt.t v :: rest, a =>
    if with_pthreads then parse with_pthreads rest { a with numthreads := v, use_threads := true }
    else .error [Event.diag Msg.no_pthreads_support]
  | Opt.s :: rest, a => parse with_pthreads rest { a with use_stdout := true }
  | Opt.o name :: rest, a => parse with_pthreads rest { a with outname := name }
  | Opt.i v :: rest, a => parse with_pthreads rest { a with interval_bits := v }
  | Opt.n v :: rest, a => parse with_pthreads rest { a with numsamples := int_to_ulong v }
  | Opt.w _ :: _, _ => .error [Event.diag Msg.usage]
  | Opt.h :: _, _ => .error [Event.diag Msg.usage]

/-- The sanity check of the sample count (lines 275-279). -/
def check_samples (numsamples : Nat) : Nat :=
  if numsamples > MAX_SAMPLES then MAX_SAMPLES else numsamples

/-- The check of the interval bits (lines 285-289). -/
def check_bits (interval_bits : Int) : Int :=
  if interval_bits > MAX_BITS ∨ interval_bits < MIN_BITS then MAX_BITS else interval_bits

/-- Cell read for line `i` of the times file of thread `j` (line 358). -/
def times_cell (numsamples j i : Nat) : Nat := (i * 2 + numsamples * j) % U64

/-- Cell read for line `i` of the counts file of thread `j` (line 373). -/
def counts_cell (numsamples j i : Nat) : Nat := (i * 2 + 1 + numsamples * j) % U64

/-- The file output loop over the threads (lines 344-377). -/
def write_files (env : Env) (numsamples : Nat) : List Nat → List Event × Bool
  | [] => ([], true)
  | j :: rest =>
    if env.times_ok j then
      let times := Event.open_times j ::
        (List.range numsamples).map (fun i => Event.line (times_cell numsamples j i))
      if env.counts_ok j then
        let counts := Event.open_counts j ::
          (List.range numsamples).map (fun i => Event.line (counts_cell numsamples j i))
        let r := write_files env numsamples rest
        (times ++ counts ++ r.1, r.2)
      else (times ++ [Event.open_counts j, Event.diag Msg.cannot_create_file], false)
    else ([Event.open_times j, Event.diag Msg.cannot_create_file], false)

/-- The output phase (lines 338-386). -/
def output (env : Env) (numsamples : Nat) (numthreads : Int) (use_stdout : Bool) : Trace :=
  if use_stdout then
    ⟨(List.range numsamples).map (fun i => Event.print [i * 2, i * 2 + 1]) ++
      [Event.free_samples], Outcome.exit_success⟩
  else
    let r := write_files env numsamples (List.range numthreads.toNat)
    if r.2 then ⟨r.1 ++ [Event.free_samples], Outcome.exit_success⟩
    else ⟨r.1, Outcome.exit_failure⟩

/-- The sanity check of the sample count and the allocation of the sample
buffer (lines 275-283). -/
def alloc_events (a : Args) : List Event :=
  (if a.numsamples > MAX_SAMPLES then [Event.diag Msg.count_exceeds_maximum] else []) ++
    [Event.malloc_samples
      ((8 * check_samples a.numsamples * 2 * int_to_ulong a.numthreads) % U64)]

/-- The warning of the check of the interval bits (lines 285-289). -/
def bits_events (a : Args) : List Event :=
  if a.interval_bits > MAX_BITS ∨ a.interval_bits < MIN_BITS
    then [Event.diag (Msg.bits_invalid MAX_BITS)] else []

/-- From `interval_length = 1 << interval_bits` to the end of `main`
(lines 303-386). -/
def measure (env : Env) (a : Args) : Trace :=
  let s := sampling env a.numthreads a.use_threads
  match s.2 with
  | some o => ⟨Event.set_length (shl_one (check_bits a.interval_bits)) :: s.1, o⟩
  | none =>
    let out := output env (check_samples a.numsamples) a.numthreads a.use_stdout
    ⟨Event.set_length (shl_one (check_bits a.interval_bits)) :: (s.1 ++ out.events),
      out.outcome⟩

/-- The function `main` after the option loop (lines 274-386). -/
def run (env : Env) (a : Args) : Trace :=
  if env.samples_ok then
    if a.use_threads ∧ a.numthreads < 2 then
      ⟨alloc_events a ++ bits_events a ++ [Event.diag Msg.threads_required],
        Outcome.exit_failure⟩
    else if a.use_threads ∧ a.use_stdout then
      ⟨alloc_events a ++ bits_events a ++ [Event.diag Msg.no_stdout_with_threads],
        Outcome.exit_failure⟩
    else
      ⟨alloc_events a ++ bits_events a ++ (measure env a).events, (measure env a).outcome⟩
  else ⟨alloc_events a ++ [Event.diag Msg.assertion_failed], Outcome.abort⟩

/-- The function `main` of `ftq.c`. -/
def main (env : Env) (opts : List Opt) : Trace :=
  match parse env.with_pthreads opts Args.initial with
  | .error ev => ⟨ev, Outcome.exit_failure⟩
  | .ok a => run env a

end Ftq

/-! ## fwq.c -/

namespace Fwq

def MAX_SAMPLES : Nat := 2000000
def MIN_SAMPLES : Nat := 1000
def DEFAULT_COUNT : Nat := 10000
def DEFAULT_BITS : Int := 20
def MAX_BITS : Int := 30
def MIN_BITS : Int := 3
def ITERCOUNT : Nat := 32

/-- The work construct selected by the preprocessor. -/
inductive Construct
  | x86_64
  | daxpy
  | aarch64
  | portable
deriving DecidableEq, Repr

/-- Body of the default work loop under `MULTIITER`: `ITERCOUNT` increments
followed by `ITERCOUNT - 1` decrements of `count`. -/
def work_pass (count : Int) : Int :=
  Nat.iterate (fun c => c - 1) (ITERCOUNT - 1) (Nat.iterate (fun c => c + 1) ITERCOUNT count)

/-- A loop `for (count = wl; count < 0; ) body`: the final count and the
number of passes of the body. -/
def countdown (body : Int → Int) : Nat → Int → Nat → Option (Int × Nat)
  | 0, count, passes => if count < 0 then none else some (count, passes)
  | fuel + 1, count, passes =>
    if count < 0 then countdown body fuel (body count) (passes + 1) else some (count, passes)

/-- An assembly loop `L: count += 1; compare count with 0; branch to L if again`. -/
def asm_loop (again : Int → Bool) : Nat → Int → Nat → Option (Int × Nat)
  | 0, _, _ => none
  | fuel + 1, count, passes =>
    if again (count + 1) then asm_loop again fuel (count + 1) (passes + 1)
    else some (count + 1, passes + 1)

/-- The work construct run on `count = wl`. -/
def work (c : Construct) (fuel : Nat) (wl : Int) : Option (Int × Nat) :=
  match c with
  | Construct.x86_64 => asm_loop (fun x => decide (x < 0)) fuel wl 0
  | Construct.daxpy => countdown (fun x => x + 1) fuel wl 0
  | Construct.aarch64 => asm_loop (fun x => decide (x ≠ 0)) fuel wl 0
  | Construct.portable => countdown work_pass fuel wl 0

/-- Timer calls made and the stores of the current pass. -/
structure CoreState where
  calls : Nat
  stored : List Store
deriving DecidableEq, Repr

/-- The expression `offset = thread_num * numsamples`, an `int`. -/
def offset (thread_num : Int) (numsamples : Nat) : Int :=
  ulong_to_int ((int_to_ulong thread_num * numsamples) % U64)

/-- Index `offset+done` of the cell of a sample. -/
def index (thread_num : Int) (numsamples done : Nat) : Nat :=
  (int_to_ulong (offset thread_num numsamples) + done) % U64

/-- Body of both `for` loops over `done`: tick, work, tock, store `tock-tick`. -/
def take_sample (clock : Nat → Nat) (c : Construct) (wl : Int) (thread_num : Int)
    (numsamples fuel : Nat) (st : CoreState) (done : Nat) : Option CoreState :=
  match work c fuel wl with
  | none => none
  | some _ =>
    some { calls := st.calls + 2
           stored := st.stored ++
             [⟨index thread_num numsamples done,
               u64_sub (clock (st.calls + 1)) (clock st.calls)⟩] }

/-- A loop `for (done = 0; done < bound; done++)` around `take_sample`. -/
def pass (clock : Nat → Nat) (c : Construct) (wl : Int) (thread_num : Int)
    (numsamples fuel : Nat) (bound : Nat) (st : CoreState) : Option CoreState :=
  (List.range bound).foldlM (take_sample clock c wl thread_num numsamples fuel) st

/-- Stores of a call of `fwq_core` that returned. -/
structure CoreRun where
  /-- stores of the warm-up pass, in order -/
  warm : List Store
  /-- stores of the sampling pass, in order -/
  steady : List Store
  /-- timer calls made -/
  calls : Nat
deriving DecidableEq, Repr

/-- How a call of `fwq_core` ends. -/
inductive CoreResult
  | out_of_fuel
  | exited (status : Nat) (stderr : List Msg)
  | returned (run : CoreRun)
deriving DecidableEq, Repr

/-- The two passes of `fwq_core` (lines 115-319). -/
def passes (clock : Nat → Nat) (c : Construct) (work_length : Int) (numsamples : Nat)
    (thread_num : Int) (fuel : Nat) : CoreResult :=
  match pass clock c (-work_length) thread_num numsamples fuel 1000 ⟨0, []⟩ with
  | none => CoreResult.out_of_fuel
  | some st1 =>
    match pass clock c (-work_length) thread_num numsamples fuel numsamples ⟨st1.calls, []⟩ with
    | none => CoreResult.out_of_fuel
    | some st2 => CoreResult.returned ⟨st1.stored, st2.stored, st2.calls⟩

/-- The function `fwq_core`. `bind_ret` is the value returned by
`sched_setaffinity` (`none` in a build without threads); `fuel` bounds each
run of the work construct. -/
def fwq_core (bind_ret : Option Int) (clock : Nat → Nat) (c : Construct) (work_length : Int)
    (numsamples : Nat) (thread_num : Int) (fuel : Nat) : CoreResult :=
  match bind_ret with
  | some r =>
    if r < 0 then CoreResult.exited 1 [Msg.failed_to_set_affinity thread_num]
    else passes clock c work_length numsamples thread_num fuel
  | none => passes clock c work_length numsamples thread_num fuel

/-- Option values collected by the `getopt_long` loop of `main`. -/
structure Args where
  numsamples : Nat
  work_bits : Int
  numthreads : Int
  use_threads : Bool
  use_stdout : Bool
  outname : String
deriving DecidableEq, Repr

/-- Initial values of the globals and locals that options overwrite. -/
def Args.initial : Args :=
  { numsamples := DEFAULT_COUNT, work_bits := DEFAULT_BITS, numthreads := 1,
    use_threads := false, use_stdout := false, outname := "fwq" }

/-- The option loop of `main` (lines 375-419); an error is the diagnostics
printed before `exit(EXIT_FAILURE)`. -/
def parse (with_pthreads : Bool) : List Opt → Args → Except (List Event) Args
  | [], a => .ok a
  | Opt.t v :: rest, a =>
    if with_pthreads then parse with_pthreads rest { a with numthreads := v, use_threads := true }
    else .error [Event.diag Msg.no_pthreads_support]
  | Opt.s :: rest, a => parse with_pthreads rest { a with use_stdout := true }
  | Opt.o name :: rest, a => parse with_pthreads rest { a with outname := name }
  | Opt.w v :: rest, a => parse with_pthreads rest { a with work_bits := v }
  | Opt.n v :: rest, a => parse with_pthreads rest { a with numsamples := int_to_ulong v }
  | Opt.i _ :: _, _ => .error [Event.diag Msg.usage]
  | Opt.h :: _, _ => .error [Event.diag Msg.usage]

/-- The sanity checks of the sample count (lines 423-432). -/
def check_samples (numsamples : Nat) : Nat :=
  let n1 := if numsamples > MAX_SAMPLES then MAX_SAMPLES else numsamples
  if n1 < MIN_SAMPLES then MIN_SAMPLES else n1

/-- The sample count used after `-n v`: `numsamples = atoi(optarg)` followed by
the sanity checks. -/
def samples_of_option (v : Int) : Nat := check_samples (int_to_ulong v)

/-- The check of the work bits (lines 438-441). -/
def check_bits (work_bits : Int) : Int :=
  if work_bits > MAX_BITS ∨ work_bits < MIN_BITS then MAX_BITS else work_bits

/-- Cell read for line `i` of the times file of thread `j` (line 511). -/
def times_cell (numsamples j i : Nat) : Nat := (i + numsamples * j) % U64

/-- The file output loop over the threads (lines 498-516). -/
def write_files (env : Env) (numsamples : Nat) : List Nat → List Event × Bool
  | [] => ([], true)
  | j :: rest =>
    if env.times_ok j then
      let times := Event.open_times j ::
        (List.range numsamples).map (fun i => Event.line (times_cell numsamples j i))
      let r := write_files env numsamples rest
      (times ++ r.1, r.2)
    else ([Event.open_times j, Event.diag Msg.cannot_create_file], false)

/-- The output phase (lines 492-525). -/
def output (env : Env) (numsamples : Nat) (numthreads : Int) (use_stdout : Bool) : Trace :=
  if use_stdout then
    ⟨(List.range numsamples).map (fun i => Event.print [i]) ++ [Event.free_samples],
      Outcome.exit_success⟩
  else
    let r := write_files env numsamples (List.range numthreads.toNat)
    if r.2 then ⟨r.1 ++ [Event.free_samples], Outcome.exit_success⟩
    else ⟨r.1, Outcome.exit_failure⟩

/-- The sanity checks of the sample count and the allocation of the sample
buffer (lines 423-436). -/
def alloc_events (a : Args) : List Event :=
  (if a.numsamples > MAX_SAMPLES then [Event.diag Msg.count_exceeds_maximum] else []) ++
    (if (if a.numsamples > MAX_SAMPLES then MAX_SAMPLES else a.numsamples) < MIN_SAMPLES
      then [Event.diag Msg.count_below_minimum] else []) ++
    [Event.malloc_samples ((8 * check_samples a.numsamples * int_to_ulong a.numthreads) % U64)]

/-- The warning of the check of the work bits (lines 438-441). -/
def bits_events (a : Args) : List Event :=
  if a.work_bits > MAX_BITS ∨ a.work_bits < MIN_BITS
    then [Event.diag (Msg.bits_invalid MAX_BITS)] else []

/-- The sampling phase of `fwq.c` (lines 457-490). The text is that of `ftq.c`,
but `fwq_core` ends the whole process with `exit(1)` when its
`sched_setaffinity` fails (lines 107-112, compiled with `_WITH_PTHREADS_`): if
the core of the calling thread or of a created thread fails to bind, the run
ends here with failure status and no output is written. The trace names the
first such core in thread order. -/
def sampling (env : Env) (numthreads : Int) (use_threads : Bool) :
    List Event × Option Outcome :=
  if use_threads then
    if env.with_pthreads then
      let alloc := [Event.set_affinity,
        Event.malloc_threads ((8 * int_to_ulong numthreads) % U64)]
      if env.threads_ok then
        let c := create_all env (List.range' 1 (numthreads.toNat - 1))
        if c.2 then
          match (0 :: List.range' 1 (numthreads.toNat - 1)).find?
              (fun i => decide (env.bind_ret i < 0)) with
          | some i =>
            (alloc ++ c.1 ++ [Event.core 0, Event.diag (Msg.failed_to_set_affinity i)],
              some Outcome.exit_failure)
          | none =>
            let j := join_all env (List.range' 1 (numthreads.toNat - 1))
            if j.2 then (alloc ++ c.1 ++ [Event.core 0] ++ j.1 ++ [Event.free_threads], none)
            else (alloc ++ c.1 ++ [Event.core 0] ++ j.1, some Outcome.exit_failure)
        else (alloc ++ c.1, some Outcome.exit_failure)
      else (alloc ++ [Event.diag Msg.assertion_failed], some Outcome.abort)
    else ([], none)
  else if env.with_pthreads ∧ env.bind_ret 0 < 0 then
    ([Event.core 0, Event.diag (Msg.failed_to_set_affinity 0)], some Outcome.exit_failure)
  else ([Event.core 0], none)

/-- From `work_length = 1 << work_bits` to the end of `main` (lines 455-525). -/
def measure (env : Env) (a : Args) : Trace :=
  let s := sampling env a.numthreads a.use_threads
  match s.2 with
  | some o => ⟨Event.set_length (shl_one (check_bits a.work_bits)) :: s.1, o⟩
  | none =>
    let out := output env (check_samples a.numsamples) a.numthreads a.use_stdout
    ⟨Event.set_length (shl_one (check_bits a.work_bits)) :: (s.1 ++ out.events),
      out.outcome⟩

/-- The function `main` after the option loop (lines 422-525). -/
def run (env : Env) (a : Args) : Trace :=
  if env.samples_ok then
    if a.use_threads ∧ a.numthreads < 2 then
      ⟨alloc_events a ++ bits_events a ++ [Event.diag Msg.threads_required],
        Outcome.exit_failure⟩
    else if a.use_threads ∧ a.use_stdout then
      ⟨alloc_events a ++ bits_events a ++ [Event.diag Msg.no_stdout_with_threads],
        Outcome.exit_failure⟩
    else
      ⟨alloc_events a ++ bits_events a ++ (measure env a).events, (measure env a).outcome⟩
  else ⟨alloc_events a ++ [Event.diag Msg.assertion_failed], Outcome.abort⟩

/-- The function `main` of `fwq.c`. -/
def main (env : Env) (opts : List Opt) : Trace :=
  match parse env.with_pthreads opts Args.initial with
  | .error ev => ⟨ev, Outcome.exit_failure⟩
  | .ok a => run env a

end Fwq

/-! ## Predicates and functions used in the statements -/

/-- Events that create a thread or run the sampling core. -/
def Event.launches : Event → Bool
  | Event.create _ => true
  | Event.core _ => true
  | _ => false

/-- The interval start held by the state is a value the timer returned. -/
def Ftq.last_from_clock (clock : Nat → Nat) (st : Ftq.CoreState) : Prop :=
  ∃ k, k < st.calls ∧ st.last = clock k

/-- The timestamps stored so far are in order and bounded by the current
interval start. -/
def Ftq.stored_sorted (st : Ftq.CoreState) : Prop :=
  (∀ s ∈ st.stored, s.ts ≤ st.last) ∧ List.Pairwise (fun a b => a ≤ b) (st.stored.map Ftq.Sample.ts)

/-- The cells of the two stores of a sample. -/
def Ftq.Sample.cells (s : Ftq.Sample) : Nat × Nat := (s.ts_cell, s.cnt_cell)

/-- The cells `ftq_core` uses for the samples `first, ..., first + count - 1`
of thread `t`. -/
def Ftq.cells_from (t : Int) (n first count : Nat) : List (Nat × Nat) :=
  (List.range' first count).map (fun d => (Ftq.ts_index t n d, Ftq.cnt_index t n d))

/-- The store of sample `done` when the pass started after `calls` timer calls. -/
def Fwq.store_of (clock : Nat → Nat) (t : Int) (n calls done : Nat) : Store :=
  ⟨Fwq.index t n done, u64_sub (clock (calls + 2 * done + 1)) (clock (calls + 2 * done))⟩

/-- The number `m` is the smallest multiple of `L` that is at least `t`, in the
words of the specification. -/
def smallest_multiple_ge (L t m : Nat) : Prop :=
  L ∣ m ∧ t ≤ m ∧ ∀ m2, L ∣ m2 → t ≤ m2 → m ≤ m2

/-- The stores of a list of samples, in program order. -/
def Ftq.stores_of : List Ftq.Sample → List Store
  | [] => []
  | s :: rest => s.stores ++ Ftq.stores_of rest

/-! ## Scenarios used by the concrete evaluations -/

/-- An environment in which every library call succeeds, built with threads. -/
def env_ok : Env :=
  { with_pthreads := true, samples_ok := true, threads_ok := true,
    create_ok := fun _ => true, join_ok := fun _ => true,
    times_ok := fun _ => true, counts_ok := fun _ => true, bind_ret := fun _ => 0 }

/-- The environment `env_ok` except that `sched_setaffinity` fails (returns -1)
in every core. -/
def env_unbound : Env := { env_ok with bind_ret := fun _ => -1 }

/-- The environment `env_ok` except that `malloc` of the sample buffer returns a
null pointer, as it does for a request of `2 ^ 63` bytes or more. -/
def env_null : Env := { env_ok with samples_ok := false }

/-- A timer starting at 100 and advancing one tick per call. -/
def clock100 (k : Nat) : Nat := 100 + k

/-- A timer advancing three ticks per call. -/
def clock3 (k : Nat) : Nat := 3 * k

/-- The run of `ftq_core` for thread 0 with three samples, an interval of 8
ticks and the timer `clock3`. -/
def run3 : Ftq.CoreRun :=
  { stderr := []
    warm := [⟨0, 0, 1, 3⟩, ⟨2, 12, 3, 2⟩, ⟨4, 21, 5, 1⟩]
    steady := [⟨0, 21, 1, 1⟩, ⟨2, 30, 3, 1⟩, ⟨4, 36, 5, 2⟩]
    calls := 15 }

/-- The run of `fwq_core` for thread 0 with 1000 samples on the timer
`clock3`. -/
def run1000 : Fwq.CoreRun :=
  { warm := (List.range 1000).map (Fwq.store_of clock3 0 1000 0)
    steady := (List.range 1000).map (Fwq.store_of clock3 0 1000 2000)
    calls := 4000 }

/-- The run of `ftq_core` for thread 0 with two samples, an interval of 64 ticks
and the timer `clock100`. -/
def run_stale : Ftq.CoreRun :=
  { stderr := []
    warm := [⟨0, 100, 1, 28⟩, ⟨2, 129, 3, 63⟩]
    steady := [⟨0, 129, 1, 1⟩, ⟨2, 194, 3, 62⟩]
    calls := 157 }

/-- Clamping to the nearest bound of `[lo, hi]`, in the words of the
specification. -/
def spec_clamp (lo hi b : Int) : Int :=
  if b < lo then lo else if b > hi then hi else b

/-- Cell `cell` lies in the region of thread `thread` when every thread owns
`region_size` consecutive cells, in the words of the specification. -/
def in_region (region_size thread cell : Nat) : Prop :=
  thread * region_size ≤ cell ∧ cell < (thread + 1) * region_size

instance (region_size thread cell : Nat) : Decidable (in_region region_size thread cell) := by
  unfold in_region; infer_instance

/-! ## Results -/

/-! ### Supporting lemmas: the ftq core -/

namespace Ftq

theorem spin_calls_le (clock : Nat → Nat) (ic : Option Nat) (e : Nat) :
    ∀ (fuel now count calls : Nat) (r : Nat × Nat),
      spin clock ic e fuel now count calls = some r → calls ≤ r.2 := by
  intro fuel
  induction fuel with
  | zero =>
    intro now count calls r h
    simp only [spin] at h
    split_ifs at h
    cases h
    exact le_refl _
  | succ f ih =>
    intro now count calls r h
    simp only [spin] at h
    split_ifs at h
    · exact le_trans (Nat.le_succ _) (ih _ _ _ _ h)
    · cases h
      exact le_refl _

/-- What a completed `take_sample` did to the state. -/
theorem take_sample_some {clock : Nat → Nat} {ic : Option Nat} {t : Int} {n fuel : Nat}
    {st st1 : CoreState} (h : take_sample clock ic t n fuel st = some st1) :
    ∃ count calls, spin clock ic st.endinterval fuel st.last 0 st.calls = some (count, calls) ∧
      st1 = { st with
        calls := calls
        done := st.done + 1
        stored := st.stored ++
          [⟨ts_index t n st.done, st.last, cnt_index t n st.done, count⟩] } := by
  unfold take_sample at h
  cases hs : spin clock ic st.endinterval fuel st.last 0 st.calls with
  | none => rw [hs] at h; cases h
  | some r =>
    obtain ⟨count, calls⟩ := r
    rw [hs] at h
    exact ⟨count, calls, rfl, (Option.some.inj h).symm⟩

theorem take_sample_last_from_clock {clock : Nat → Nat} {ic : Option Nat} {t : Int}
    {n fuel : Nat} {st st1 : CoreState} (h : take_sample clock ic t n fuel st = some st1)
    (hl : last_from_clock clock st) : last_from_clock clock st1 := by
  obtain ⟨count, calls, hs, rfl⟩ := take_sample_some h
  obtain ⟨k, hk, hlast⟩ := hl
  have := spin_calls_le clock ic _ _ _ _ _ _ hs
  exact ⟨k, lt_of_lt_of_le hk this, hlast⟩

theorem refresh_last_from_clock (clock : Nat → Nat) (L : Nat) (st : CoreState) :
    last_from_clock clock (refresh clock L st) :=
  ⟨st.calls, Nat.lt_succ_self _, rfl⟩

theorem take_sample_sorted {clock : Nat → Nat} {ic : Option Nat} {t : Int}
    {n fuel : Nat} {st st1 : CoreState} (h : take_sample clock ic t n fuel st = some st1)
    (hs : stored_sorted st) : stored_sorted st1 := by
  obtain ⟨count, calls, _, rfl⟩ := take_sample_some h
  obtain ⟨hb, hp⟩ := hs
  constructor
  · intro s hmem
    simp only [List.mem_append, List.mem_singleton] at hmem
    rcases hmem with hmem | rfl
    · exact hb s hmem
    · exact le_refl _
  · simp only [List.map_append, List.map_cons, List.map_nil]
    rw [List.pairwise_append]
    refine ⟨hp, List.pairwise_singleton _ _, ?_⟩
    intro a ha b hb2
    simp only [List.mem_singleton] at hb2
    subst hb2
    obtain ⟨s, hsm, rfl⟩ := List.mem_map.1 ha
    exact hb s hsm

theorem refresh_sorted {clock : Nat → Nat} (hmono : ∀ k, clock k ≤ clock (k + 1)) (L : Nat)
    {st : CoreState} (hl : last_from_clock clock st) (hs : stored_sorted st) :
    stored_sorted (refresh clock L st) := by
  obtain ⟨k, hk, hlast⟩ := hl
  have hm : clock k ≤ clock st.calls := monotone_nat_of_le_succ hmono (le_of_lt hk)
  refine ⟨?_, hs.2⟩
  intro s hmem
  have h1 : s.ts ≤ st.last := hs.1 s hmem
  show s.ts ≤ clock st.calls
  exact le_trans h1 (hlast ▸ hm)

theorem warmup_last_from_clock (clock : Nat → Nat) (ic : Option Nat) (L : Nat) (t : Int)
    (n fuel : Nat) : ∀ (remaining : Nat) (st st1 : CoreState),
      warmup clock ic L t n fuel remaining st = some st1 →
      last_from_clock clock st → last_from_clock clock st1 := by
  intro remaining
  induction remaining with
  | zero =>
    intro st st1 h hl
    simp only [warmup] at h
    cases h
    exact hl
  | succ r ih =>
    intro st st1 h hl
    simp only [warmup] at h
    cases hts : take_sample clock ic t n fuel st with
    | none => rw [hts] at h; cases h
    | some s1 =>
      rw [hts] at h
      simp only at h
      split_ifs at h
      · cases h
        exact take_sample_last_from_clock hts hl
      · exact ih _ _ h (refresh_last_from_clock clock L s1)

theorem steady_sorted (clock : Nat → Nat) (hmono : ∀ k, clock k ≤ clock (k + 1))
    (ic : Option Nat) (L : Nat) (t : Int) (n fuel : Nat) :
    ∀ (iters : Nat) (st st1 : CoreState),
      steady clock ic L t n fuel iters st = some st1 →
      last_from_clock clock st → stored_sorted st → stored_sorted st1 := by
  intro iters
  induction iters with
  | zero =>
    intro st st1 h
    simp only [steady] at h
    cases h
  | succ r ih =>
    intro st st1 h hl hs
    simp only [steady] at h
    cases hts : take_sample clock ic t n fuel st with
    | none => rw [hts] at h; cases h
    | some s1 =>
      rw [hts] at h
      simp only at h
      have hl1 := take_sample_last_from_clock hts hl
      have hs1 := take_sample_sorted hts hs
      split_ifs at h
      · cases h
        exact hs1
      · exact ih _ _ h (refresh_last_from_clock clock L s1) (refresh_sorted hmono L hl1 hs1)

/-- What a returned `ftq_core` is made of. -/
theorem ftq_core_some {bind_ret : Option Int} {clock : Nat → Nat} {ic : Option Nat}
    {L n : Nat} {t : Int} {fuel : Nat} {run : CoreRun}
    (h : ftq_core bind_ret clock ic L n t fuel = some run) :
    ∃ st1 st2,
      warmup clock ic L t n fuel 1000
        { last := clock 0, endinterval := boundary (clock 0) L, done := 0, calls := 1,
          stored := [] } = some st1 ∧
      steady clock ic L t n fuel fuel { st1 with done := 0, stored := [] } = some st2 ∧
      run.warm = st1.stored ∧ run.steady = st2.stored ∧ run.calls = st2.calls := by
  unfold ftq_core at h
  simp only at h
  cases hw : warmup clock ic L t n fuel 1000
      { last := clock 0, endinterval := boundary (clock 0) L, done := 0, calls := 1,
        stored := [] } with
  | none => rw [hw] at h; cases h
  | some st1 =>
    rw [hw] at h
    simp only at h
    cases hst : steady clock ic L t n fuel fuel { st1 with done := 0, stored := [] } with
    | none => rw [hst] at h; cases h
    | some st2 =>
      rw [hst] at h
      simp only [Option.some.injEq] at h
      subst h
      exact ⟨st1, st2, rfl, hst, rfl, rfl, rfl⟩

end Ftq

/-! ### Supporting lemmas: the ftq core returns on an advancing timer -/

namespace Ftq

theorem spin_returns_aux (clock : Nat → Nat) (hclock : ∀ k, k ≤ clock k) (ic : Option Nat)
    (e : Nat) : ∀ (fuel now count calls : Nat), calls ≤ now + 1 →
      (e ≤ now ∨ e < calls + fuel) → ∃ r, spin clock ic e fuel now count calls = some r := by
  intro fuel
  induction fuel with
  | zero =>
    intro now count calls hinv h
    have : ¬ now < e := by omega
    exact ⟨(count, calls), by simp only [spin, this, if_false]⟩
  | succ f ih =>
    intro now count calls hinv h
    by_cases hlt : now < e
    · simp only [spin, hlt, if_true]
      have h1 := hclock calls
      exact ih _ _ _ (by omega) (by omega)
    · exact ⟨(count, calls), by simp only [spin, hlt, if_false]⟩

theorem spin_returns (clock : Nat → Nat) (hclock : ∀ k, k ≤ clock k) (ic : Option Nat)
    (e fuel now count calls : Nat) (h : e < calls + (fuel + 1)) :
    ∃ r, spin clock ic e (fuel + 1) now count calls = some r := by
  by_cases hlt : now < e
  · simp only [spin, hlt, if_true]
    have h1 := hclock calls
    exact spin_returns_aux clock hclock ic e fuel _ _ _ (by omega) (by omega)
  · exact ⟨(count, calls), by simp only [spin, hlt, if_false]⟩

theorem boundary_lt (last L : Nat) : boundary last L < U64 := by
  unfold boundary
  exact lt_of_le_of_lt Nat.and_le_left (Nat.mod_lt _ (by unfold U64; norm_num))

theorem take_sample_returns (clock : Nat → Nat) (hclock : ∀ k, k ≤ clock k)
    (ic : Option Nat) (t : Int) (n : Nat) (st : CoreState) (he : st.endinterval < U64) :
    ∃ count calls,
      take_sample clock ic t n U64 st = some { st with
        calls := calls
        done := st.done + 1
        stored := st.stored ++
          [⟨ts_index t n st.done, st.last, cnt_index t n st.done, count⟩] } := by
  have hU : U64 = (U64 - 1) + 1 := by unfold U64; norm_num
  obtain ⟨r, hr⟩ := spin_returns clock hclock ic st.endinterval (U64 - 1) st.last 0 st.calls
    (by omega)
  rw [← hU] at hr
  obtain ⟨count, calls⟩ := r
  exact ⟨count, calls, by simp only [take_sample, hr]⟩

/-- The cells stored by a completed warm-up loop. -/
theorem warmup_cells (clock : Nat → Nat) (ic : Option Nat) (L : Nat) (t : Int)
    (n fuel : Nat) : ∀ (remaining : Nat) (st st1 : CoreState),
      warmup clock ic L t n fuel remaining st = some st1 →
      st1.stored.map Sample.cells = st.stored.map Sample.cells ++
        cells_from t n st.done (min remaining (max (n - st.done) 1)) := by
  intro remaining
  induction remaining with
  | zero =>
    intro st st1 h
    simp only [warmup, Option.some.injEq] at h
    subst h
    simp [cells_from]
  | succ r ih =>
    intro st st1 h
    simp only [warmup] at h
    cases hts : take_sample clock ic t n fuel st with
    | none => rw [hts] at h; cases h
    | some s1 =>
      rw [hts] at h
      obtain ⟨count, calls, _, rfl⟩ := take_sample_some hts
      simp only at h
      by_cases hd : st.done + 1 ≥ n
      · simp only [hd, if_true, Option.some.injEq] at h
        subst h
        have h1 : min (r + 1) (max (n - st.done) 1) = 1 := by omega
        simp [h1, cells_from, Sample.cells]
      · simp only [hd, if_false] at h
        rw [ih _ _ h]
        have h4 : min (r + 1) (max (n - st.done) 1) =
            min r (max (n - (st.done + 1)) 1) + 1 := by omega
        simp only [refresh, List.map_append, List.map_cons, List.map_nil, cells_from, h4,
          List.range'_succ, Sample.cells, List.append_assoc, List.singleton_append]

/-- The cells stored by a completed sampling loop. -/
theorem steady_cells (clock : Nat → Nat) (ic : Option Nat) (L : Nat) (t : Int)
    (n fuel : Nat) : ∀ (iters : Nat) (st st1 : CoreState),
      steady clock ic L t n fuel iters st = some st1 →
      st1.stored.map Sample.cells = st.stored.map Sample.cells ++
        cells_from t n st.done (max (n - st.done) 1) := by
  intro iters
  induction iters with
  | zero =>
    intro st st1 h
    simp only [steady] at h
    cases h
  | succ r ih =>
    intro st st1 h
    simp only [steady] at h
    cases hts : take_sample clock ic t n fuel st with
    | none => rw [hts] at h; cases h
    | some s1 =>
      rw [hts] at h
      obtain ⟨count, calls, _, rfl⟩ := take_sample_some hts
      simp only at h
      by_cases hd : st.done + 1 ≥ n
      · simp only [hd, if_true, Option.some.injEq] at h
        subst h
        have h1 : max (n - st.done) 1 = 1 := by omega
        simp [h1, cells_from, Sample.cells]
      · simp only [hd, if_false] at h
        rw [ih _ _ h]
        have h4 : max (n - st.done) 1 = max (n - (st.done + 1)) 1 + 1 := by omega
        simp only [refresh, List.map_append, List.map_cons, List.map_nil, cells_from, h4,
          List.range'_succ, Sample.cells, List.append_assoc, List.singleton_append]

/-- The cells stored by the two passes of a returned `ftq_core`: the sampling
pass stores `max n 1` samples, the warm-up pass `min 1000 (max n 1)`. -/
theorem ftq_core_cells {bind_ret : Option Int} {clock : Nat → Nat} {ic : Option Nat}
    {L n : Nat} {t : Int} {fuel : Nat} {run : CoreRun}
    (h : ftq_core bind_ret clock ic L n t fuel = some run) :
    run.steady.map Sample.cells = cells_from t n 0 (max n 1) ∧
    run.warm.map Sample.cells = cells_from t n 0 (min 1000 (max n 1)) ∧
    run.steady.length = max n 1 := by
  obtain ⟨st1, st2, hw, hst, hwarm, hsteady, _⟩ := ftq_core_some h
  have h1 := warmup_cells clock ic L t n fuel 1000 _ _ hw
  have h2 := steady_cells clock ic L t n fuel fuel _ _ hst
  have h2a : run.steady.map Sample.cells = cells_from t n 0 (max n 1) := by
    rw [hsteady]; simpa using h2
  refine ⟨h2a, ?_, ?_⟩
  · rw [hwarm]; simpa using h1
  · have := congrArg List.length h2a
    simpa [cells_from] using this

theorem warmup_returns (clock : Nat → Nat) (hclock : ∀ k, k ≤ clock k) (ic : Option Nat)
    (L : Nat) (t : Int) (n : Nat) : ∀ (remaining : Nat) (st : CoreState),
      st.endinterval < U64 →
      ∃ st1, warmup clock ic L t n U64 remaining st = some st1 ∧ st1.endinterval < U64 := by
  intro remaining
  induction remaining with
  | zero =>
    intro st he
    exact ⟨st, rfl, he⟩
  | succ r ih =>
    intro st he
    obtain ⟨count, calls, hts⟩ := take_sample_returns clock hclock ic t n st he
    simp only [warmup, hts]
    by_cases hd : st.done + 1 ≥ n
    · simp only [hd, if_true]
      exact ⟨_, rfl, he⟩
    · simp only [hd, if_false]
      exact ih _ (boundary_lt _ _)

theorem steady_returns (clock : Nat → Nat) (hclock : ∀ k, k ≤ clock k) (ic : Option Nat)
    (L : Nat) (t : Int) (n : Nat) : ∀ (iters : Nat) (st : CoreState),
      st.endinterval < U64 → 1 ≤ iters → n ≤ st.done + iters →
      ∃ st1, steady clock ic L t n U64 iters st = some st1 := by
  intro iters
  induction iters with
  | zero => intro st _ h; omega
  | succ r ih =>
    intro st he _ hn
    obtain ⟨count, calls, hts⟩ := take_sample_returns clock hclock ic t n st he
    simp only [steady, hts]
    by_cases hd : st.done + 1 ≥ n
    · simp only [hd, if_true]
      exact ⟨_, rfl⟩
    · simp only [hd, if_false]
      exact ih _ (boundary_lt _ _) (by omega) (by simp only [refresh]; omega)

/-- On a timer that advances at every call, `ftq_core` returns when given fuel
`2 ^ 64`. -/
theorem ftq_core_returns (bind_ret : Option Int) (clock : Nat → Nat)
    (hclock : ∀ k, k ≤ clock k) (ic : Option Nat) (L n : Nat) (t : Int) (hn : n ≤ U64) :
    ∃ run, ftq_core bind_ret clock ic L n t U64 = some run := by
  obtain ⟨st1, hw, he1⟩ := warmup_returns clock hclock ic L t n 1000
    { last := clock 0, endinterval := boundary (clock 0) L, done := 0, calls := 1, stored := [] }
    (boundary_lt _ _)
  obtain ⟨st2, hs⟩ := steady_returns clock hclock ic L t n U64
    { st1 with done := 0, stored := [] } he1 (by unfold U64; norm_num)
    (by simpa using hn)
  simp only [ftq_core, hw, hs]
  exact ⟨_, rfl⟩

theorem int_to_ulong_natCast (x : Nat) (h : x < 2 ^ 64) : int_to_ulong (x : Int) = x := by
  unfold int_to_ulong
  rw [Int.emod_eq_of_lt (Int.natCast_nonneg x) (by exact_mod_cast h), Int.toNat_natCast]

theorem ulong_to_int_small (x : Nat) (h : x < 2 ^ 31) : ulong_to_int x = (x : Int) := by
  unfold ulong_to_int
  have h1 : x % 2 ^ 32 = x := Nat.mod_eq_of_lt (by omega)
  rw [h1, if_pos h]

/-- Without wrap-around the offset of thread `t` is `t * n * 2`. -/
theorem offset_eq (t n : Nat) (hn : 1 ≤ n) (h : t * n * 2 < 2 ^ 31) :
    int_to_ulong (offset (t : Int) n) = t * n * 2 := by
  have ht : t < 2 ^ 64 := by nlinarith
  unfold offset
  rw [int_to_ulong_natCast t ht, Nat.mod_eq_of_lt (by unfold U64; omega),
    ulong_to_int_small _ h, int_to_ulong_natCast _ (by omega)]

/-- For a sample count of at least 1 and without wrap-around of the `int`
offset, every store of a returned `ftq_core` of thread `t` lies in the region
`[t * 2n, (t + 1) * 2n)` of the thread. -/
theorem stores_in_region {bind_ret : Option Int} {clock : Nat → Nat} {ic : Option Nat}
    {L n t fuel : Nat} {run : CoreRun} (hn : 1 ≤ n) (hfit : (t + 1) * (2 * n) ≤ 2 ^ 31)
    (h : ftq_core bind_ret clock ic L n (t : Int) fuel = some run) :
    ∀ s ∈ run.warm ++ run.steady,
      in_region (2 * n) t s.ts_cell ∧ in_region (2 * n) t s.cnt_cell := by
  obtain ⟨hs, hw, _⟩ := ftq_core_cells h
  have hoff := offset_eq t n hn (by nlinarith)
  have key : ∀ c ∈ cells_from (t : Int) n 0 (max n 1),
      in_region (2 * n) t c.1 ∧ in_region (2 * n) t c.2 := by
    intro c hc
    unfold cells_from at hc
    obtain ⟨d, hd, rfl⟩ := List.mem_map.1 hc
    rw [List.mem_range'_1] at hd
    have hd2 : d < n := by omega
    simp only [ts_index, cnt_index, hoff, in_region, U64]
    have e1 : (d * 2 + t * n * 2) % 2 ^ 64 = d * 2 + t * n * 2 :=
      Nat.mod_eq_of_lt (by nlinarith)
    have e2 : (d * 2 + 1 + t * n * 2) % 2 ^ 64 = d * 2 + 1 + t * n * 2 :=
      Nat.mod_eq_of_lt (by nlinarith)
    rw [e1, e2]
    refine ⟨⟨by nlinarith, by nlinarith⟩, ⟨by nlinarith, by nlinarith⟩⟩
  have sub : ∀ c ∈ cells_from (t : Int) n 0 (min 1000 (max n 1)),
      c ∈ cells_from (t : Int) n 0 (max n 1) := by
    intro c hc
    unfold cells_from at hc ⊢
    obtain ⟨d, hd, rfl⟩ := List.mem_map.1 hc
    rw [List.mem_range'_1] at hd
    exact List.mem_map.2 ⟨d, by rw [List.mem_range'_1]; omega, rfl⟩
  intro s hmem
  rcases List.mem_append.1 hmem with hm | hm
  · have : s.cells ∈ run.warm.map Sample.cells := List.mem_map.2 ⟨s, hm, rfl⟩
    rw [hw] at this
    exact key _ (sub _ this)
  · have : s.cells ∈ run.steady.map Sample.cells := List.mem_map.2 ⟨s, hm, rfl⟩
    rw [hs] at this
    exact key _ this

/-- The output loop of `main` reads the cells of thread 0 where `ftq_core`
stored them, and for every later thread it reads `n * j` cells too low. -/
theorem output_cells (n j i : Nat) (hn : 1 ≤ n) (hi : i < n)
    (hfit : (j + 1) * (2 * n) ≤ 2 ^ 31) :
    times_cell n j i + n * j = ts_index (j : Int) n i ∧
    counts_cell n j i + n * j = cnt_index (j : Int) n i := by
  have hoff := offset_eq j n hn (by nlinarith)
  simp only [times_cell, counts_cell, ts_index, cnt_index, hoff, U64]
  rw [Nat.mod_eq_of_lt (by nlinarith), Nat.mod_eq_of_lt (by nlinarith),
    Nat.mod_eq_of_lt (by nlinarith), Nat.mod_eq_of_lt (by nlinarith)]
  constructor <;> ring

end Ftq

/-! ### Supporting lemmas: the fwq core -/

namespace Fwq

theorem iterate_incr (m : Nat) (c : Int) : Nat.iterate (fun x : Int => x + 1) m c = c + m := by
  induction m generalizing c with
  | zero => simp
  | succ k ih =>
    rw [Function.iterate_succ_apply, ih]
    push_cast
    ring

theorem iterate_decr (m : Nat) (c : Int) : Nat.iterate (fun x : Int => x - 1) m c = c - m := by
  induction m generalizing c with
  | zero => simp
  | succ k ih =>
    rw [Function.iterate_succ_apply, ih]
    push_cast
    ring

/-- One pass of the default loop body raises the count by one. -/
theorem work_pass_eq (c : Int) : work_pass c = c + 1 := by
  unfold work_pass ITERCOUNT
  rw [iterate_incr, iterate_decr]
  norm_num
  ring

theorem countdown_returns (body : Int → Int) (hbody : ∀ c, body c = c + 1) :
    ∀ (fuel : Nat) (count : Int) (passes : Nat), count ≤ 0 → (-count).toNat ≤ fuel →
      countdown body fuel count passes = some (0, passes + (-count).toNat) := by
  intro fuel
  induction fuel with
  | zero =>
    intro count passes h0 hf
    have hc : count = 0 := by omega
    subst hc
    simp [countdown]
  | succ f ih =>
    intro count passes h0 hf
    by_cases hc : count < 0
    · simp only [countdown, hc, if_true, hbody]
      rw [ih (count + 1) (passes + 1) (by omega) (by omega)]
      have : (-(count + 1)).toNat + 1 = (-count).toNat := by omega
      rw [Nat.add_assoc, Nat.add_comm 1, this]
    · have hc0 : count = 0 := by omega
      subst hc0
      simp [countdown]

theorem asm_loop_returns (again : Int → Bool) (hagain : ∀ c : Int, c ≤ 0 → (again c = true ↔ c < 0)) :
    ∀ (fuel : Nat) (count : Int) (passes : Nat), count < 0 → (-count).toNat ≤ fuel →
      asm_loop again fuel count passes = some (0, passes + (-count).toNat) := by
  intro fuel
  induction fuel with
  | zero =>
    intro count passes h0 hf
    omega
  | succ f ih =>
    intro count passes h0 hf
    by_cases hc : count + 1 < 0
    · have ha : again (count + 1) = true := (hagain _ (by omega)).2 hc
      simp only [asm_loop, ha, if_true]
      rw [ih (count + 1) (passes + 1) hc (by omega)]
      have : (-(count + 1)).toNat + 1 = (-count).toNat := by omega
      rw [Nat.add_assoc, Nat.add_comm 1, this]
    · have ha : ¬ again (count + 1) = true := fun h => hc ((hagain _ (by omega)).1 h)
      have hc0 : count = -1 := by omega
      subst hc0
      simp only [asm_loop, ha, if_false]
      rfl

/-- With fuel for fewer passes than the distance to zero, a countdown does not
finish. -/
theorem countdown_short (body : Int → Int) (hbody : ∀ c, body c = c + 1) :
    ∀ (fuel : Nat) (count : Int) (passes : Nat), fuel < (-count).toNat →
      countdown body fuel count passes = none := by
  intro fuel
  induction fuel with
  | zero =>
    intro count passes hf
    have hc : count < 0 := by omega
    simp [countdown, hc]
  | succ f ih =>
    intro count passes hf
    have hc : count < 0 := by omega
    simp only [countdown, hc, if_true, hbody]
    exact ih _ _ (by omega)

/-- Every work construct started at `-N` with `N ≥ 1` ends with the count at 0
after exactly `N` passes, given fuel for `N` passes. -/
theorem work_returns (c : Construct) (N fuel : Nat) (hN : 1 ≤ N) (hf : N ≤ fuel) :
    work c fuel (-(N : Int)) = some (0, N) := by
  have hneg : (-(-(N : Int))).toNat = N := by simp
  cases c with
  | x86_64 =>
    have := asm_loop_returns (fun x => decide (x < 0)) (by intro c _; simp) fuel (-(N : Int)) 0
      (by omega) (by omega)
    simpa [work, hneg] using this
  | daxpy =>
    have := countdown_returns (fun x => x + 1) (fun _ => rfl) fuel (-(N : Int)) 0
      (by omega) (by omega)
    simpa [work, hneg] using this
  | aarch64 =>
    have := asm_loop_returns (fun x => decide (x ≠ 0)) (by intro c hc; simp; omega) fuel
      (-(N : Int)) 0 (by omega) (by omega)
    simpa [work, hneg] using this
  | portable =>
    have := countdown_returns work_pass work_pass_eq fuel (-(N : Int)) 0 (by omega) (by omega)
    simpa [work, hneg] using this

/-- A pass over `bound` samples when the work construct returns. -/
theorem pass_returns (clock : Nat → Nat) (c : Construct) (wl : Int) (t : Int)
    (n fuel : Nat) (r : Int × Nat) (hw : work c fuel wl = some r) (calls : Nat)
    (stored : List Store) : ∀ bound : Nat,
      pass clock c wl t n fuel bound ⟨calls, stored⟩ =
        some ⟨calls + 2 * bound,
          stored ++ (List.range bound).map (store_of clock t n calls)⟩ := by
  intro bound
  induction bound with
  | zero => simp [pass]
  | succ k ih =>
    unfold pass at ih ⊢
    rw [List.range_succ, List.foldlM_append, ih]
    simp only [Option.bind_eq_bind, Option.some_bind, List.foldlM_cons, List.foldlM_nil,
      take_sample, hw, List.map_append, List.map_cons, List.map_nil, store_of,
      Option.pure_def, List.append_assoc, Nat.mul_succ, Nat.add_assoc]

/-- Given fuel for the work length, `fwq_core` without a failed binding returns
after a warm-up pass of 1000 stores and a sampling pass of exactly `n` stores,
sample `d` going to cell `index t n d`. -/
theorem passes_returns (clock : Nat → Nat) (c : Construct) (N n : Nat) (t : Int)
    (fuel : Nat) (hN : 1 ≤ N) (hf : N ≤ fuel) :
    passes clock c (N : Int) n t fuel =
      CoreResult.returned
        ⟨(List.range 1000).map (store_of clock t n 0),
          (List.range n).map (store_of clock t n 2000), 2000 + 2 * n⟩ := by
  have hw := work_returns c N fuel hN hf
  unfold passes
  rw [pass_returns clock c _ t n fuel _ hw 0 [] 1000]
  simp only
  rw [pass_returns clock c _ t n fuel _ hw _ [] n]
  simp

/-- When the work construct runs out of fuel, so does a pass of at least one
sample. -/
theorem pass_none (clock : Nat → Nat) (c : Construct) (wl : Int) (t : Int)
    (n fuel : Nat) (hw : work c fuel wl = none) : ∀ (bound : Nat) (st : CoreState),
      pass clock c wl t n fuel (bound + 1) st = none := by
  intro bound
  induction bound with
  | zero =>
    intro st
    simp [pass, List.range_succ, take_sample, hw]
  | succ k ih =>
    intro st
    have hk := ih st
    unfold pass at hk ⊢
    rw [List.range_succ, List.foldlM_append, hk]
    rfl

/-- The state after a completed pass. -/
theorem pass_some {clock : Nat → Nat} {c : Construct} {wl : Int} {t : Int}
    {n fuel bound calls : Nat} {stored : List Store} {st : CoreState}
    (h : pass clock c wl t n fuel bound ⟨calls, stored⟩ = some st) :
    st = ⟨calls + 2 * bound, stored ++ (List.range bound).map (store_of clock t n calls)⟩ := by
  cases hw : work c fuel wl with
  | none =>
    cases bound with
    | zero =>
      simp only [pass, List.range_zero, List.foldlM_nil] at h
      cases h
      simp
    | succ k =>
      rw [pass_none clock c wl t n fuel hw k] at h
      cases h
  | some r =>
    rw [pass_returns clock c wl t n fuel r hw calls stored bound] at h
    exact (Option.some.inj h).symm

/-- The stores of a returned `fwq_core`: 1000 in the warm-up pass and exactly
`n` in the sampling pass, sample `d` going to cell `index t n d`. -/
theorem fwq_core_stores {bind_ret : Option Int} {clock : Nat → Nat} {c : Construct}
    {wl : Int} {n : Nat} {t : Int} {fuel : Nat} {run : CoreRun}
    (h : fwq_core bind_ret clock c wl n t fuel = CoreResult.returned run) :
    run.warm = (List.range 1000).map (store_of clock t n 0) ∧
    run.steady = (List.range n).map (store_of clock t n 2000) ∧
    run.steady.length = n := by
  have hp : passes clock c wl n t fuel = CoreResult.returned run := by
    unfold fwq_core at h
    cases bind_ret with
    | none => exact h
    | some r =>
      simp only at h
      split_ifs at h
      exact h
  unfold passes at hp
  cases h1 : pass clock c (-wl) t n fuel 1000 ⟨0, []⟩ with
  | none => rw [h1] at hp; cases hp
  | some st1 =>
    rw [h1] at hp
    simp only at hp
    have e1 := pass_some h1
    cases h2 : pass clock c (-wl) t n fuel n ⟨st1.calls, []⟩ with
    | none => rw [h2] at hp; cases hp
    | some st2 =>
      rw [h2] at hp
      have e2 := pass_some h2
      simp only [CoreResult.returned.injEq] at hp
      subst hp
      subst e1
      subst e2
      simp

/-- Without wrap-around the offset of thread `t` is `t * n`. -/
theorem index_offset_eq (t n : Nat) (hn : 1 ≤ n) (h : t * n < 2 ^ 31) :
    int_to_ulong (offset (t : Int) n) = t * n := by
  have ht : t < 2 ^ 64 := by nlinarith
  unfold offset
  rw [Ftq.int_to_ulong_natCast t ht, Nat.mod_eq_of_lt (by unfold U64; omega),
    Ftq.ulong_to_int_small _ h, Ftq.int_to_ulong_natCast _ (by omega)]

/-- For a sample count of at least 1000 (as `main` ensures) and without
wrap-around of the `int` offset, every store of a returned `fwq_core` of thread
`t` lies in the region `[t * n, (t + 1) * n)` of the thread. -/
theorem stores_in_own_region {bind_ret : Option Int} {clock : Nat → Nat} {c : Construct}
    {wl : Int} {n t fuel : Nat} {run : CoreRun} (hn : 1000 ≤ n)
    (hfit : (t + 1) * n ≤ 2 ^ 31)
    (h : fwq_core bind_ret clock c wl n (t : Int) fuel = CoreResult.returned run) :
    ∀ s ∈ run.warm ++ run.steady, in_region n t s.cell := by
  obtain ⟨hw, hs, _⟩ := fwq_core_stores h
  have hoff := index_offset_eq t n (by omega) (by nlinarith)
  have key : ∀ d, d < n → ∀ calls, in_region n t (store_of clock (t : Int) n calls d).cell := by
    intro d hd calls
    simp only [store_of, index, hoff, in_region, U64]
    rw [Nat.mod_eq_of_lt (by nlinarith)]
    exact ⟨by nlinarith, by nlinarith⟩
  intro s hmem
  rcases List.mem_append.1 hmem with hm | hm
  · rw [hw] at hm
    obtain ⟨d, hd, rfl⟩ := List.mem_map.1 hm
    exact key d (by have := List.mem_range.1 hd; omega) 0
  · rw [hs] at hm
    obtain ⟨d, hd, rfl⟩ := List.mem_map.1 hm
    exact key d (List.mem_range.1 hd) 2000

end Fwq

/-! ### Supporting lemmas: option parsing and the phases of `main` -/

theorem ftq_parse_threads (wp : Bool) : ∀ (opts : List Opt) (a0 a : Ftq.Args),
    Ftq.parse wp opts a0 = .ok a →
    (a0.use_threads = false → a0.numthreads = 1) →
    (a.use_threads = false → a.numthreads = 1) := by
  intro opts
  induction opts with
  | nil =>
    intro a0 a h h0
    simp only [Ftq.parse, Except.ok.injEq] at h
    subst h
    exact h0
  | cons o rest ih =>
    intro a0 a h h0
    cases o with
    | t v =>
      simp only [Ftq.parse] at h
      split_ifs at h
      exact ih _ _ h (by intro hc; cases hc)
    | s => simp only [Ftq.parse] at h; exact ih _ _ h h0
    | o name => simp only [Ftq.parse] at h; exact ih _ _ h h0
    | i v => simp only [Ftq.parse] at h; exact ih _ _ h h0
    | n v => simp only [Ftq.parse] at h; exact ih _ _ h h0
    | w v => simp only [Ftq.parse] at h; cases h
    | h => simp only [Ftq.parse] at h; cases h

theorem fwq_parse_threads (wp : Bool) : ∀ (opts : List Opt) (a0 a : Fwq.Args),
    Fwq.parse wp opts a0 = .ok a →
    (a0.use_threads = false → a0.numthreads = 1) →
    (a.use_threads = false → a.numthreads = 1) := by
  intro opts
  induction opts with
  | nil =>
    intro a0 a h h0
    simp only [Fwq.parse, Except.ok.injEq] at h
    subst h
    exact h0
  | cons o rest ih =>
    intro a0 a h h0
    cases o with
    | t v =>
      simp only [Fwq.parse] at h
      split_ifs at h
      exact ih _ _ h (by intro hc; cases hc)
    | s => simp only [Fwq.parse] at h; exact ih _ _ h h0
    | o name => simp only [Fwq.parse] at h; exact ih _ _ h h0
    | w v => simp only [Fwq.parse] at h; exact ih _ _ h h0
    | n v => simp only [Fwq.parse] at h; exact ih _ _ h h0
    | i v => simp only [Fwq.parse] at h; cases h
    | h => simp only [Fwq.parse] at h; cases h

/-- A configuration asking for more than one thread was given `-t`. -/
theorem ftq_use_threads_of_many {wp : Bool} {opts : List Opt} {a : Ftq.Args}
    (h : Ftq.parse wp opts Ftq.Args.initial = .ok a) (hn : 1 < a.numthreads) :
    a.use_threads = true := by
  by_contra hc
  have := ftq_parse_threads wp opts _ a h (fun _ => rfl) (by simpa using hc)
  omega

theorem fwq_use_threads_of_many {wp : Bool} {opts : List Opt} {a : Fwq.Args}
    (h : Fwq.parse wp opts Fwq.Args.initial = .ok a) (hn : 1 < a.numthreads) :
    a.use_threads = true := by
  by_contra hc
  have := fwq_parse_threads wp opts _ a h (fun _ => rfl) (by simpa using hc)
  omega

theorem ftq_alloc_events_no_launch (a : Ftq.Args) :
    ∀ e ∈ Ftq.alloc_events a, e.launches = false := by
  intro e he
  unfold Ftq.alloc_events at he
  simp only [List.mem_append, List.mem_singleton] at he
  rcases he with he | he
  · split_ifs at he <;>
      first
      | (simp only [List.mem_singleton] at he; subst he; rfl)
      | cases he
  · subst he; rfl

theorem ftq_bits_events_no_launch (a : Ftq.Args) :
    ∀ e ∈ Ftq.bits_events a, e.launches = false := by
  intro e he
  unfold Ftq.bits_events at he
  split_ifs at he
  · simp only [List.mem_singleton] at he; subst he; rfl
  · cases he

theorem fwq_alloc_events_no_launch (a : Fwq.Args) :
    ∀ e ∈ Fwq.alloc_events a, e.launches = false := by
  intro e he
  unfold Fwq.alloc_events at he
  simp only [List.mem_append, List.mem_singleton] at he
  rcases he with (he | he) | he
  · split_ifs at he <;>
      first
      | (simp only [List.mem_singleton] at he; subst he; rfl)
      | cases he
  · split_ifs at he <;>
      first
      | (simp only [List.mem_singleton] at he; subst he; rfl)
      | cases he
  · subst he; rfl

theorem fwq_bits_events_no_launch (a : Fwq.Args) :
    ∀ e ∈ Fwq.bits_events a, e.launches = false := by
  intro e he
  unfold Fwq.bits_events at he
  split_ifs at he
  · simp only [List.mem_singleton] at he; subst he; rfl
  · cases he

/-- The trace of `main` of `ftq.c` when `-t` came with a count below 2. -/
theorem ftq_main_few_threads {env : Env} {opts : List Opt} {a : Ftq.Args}
    (ha : Ftq.parse env.with_pthreads opts Ftq.Args.initial = .ok a)
    (ht : a.use_threads = true) (hn : a.numthreads < 2) :
    Ftq.main env opts =
      if env.samples_ok then
        ⟨Ftq.alloc_events a ++ Ftq.bits_events a ++ [Event.diag Msg.threads_required],
          Outcome.exit_failure⟩
      else ⟨Ftq.alloc_events a ++ [Event.diag Msg.assertion_failed], Outcome.abort⟩ := by
  simp only [Ftq.main, ha, Ftq.run, ht, hn, and_self, if_true]

/-- The trace of `main` of `fwq.c` when `-t` came with a count below 2. -/
theorem fwq_main_few_threads {env : Env} {opts : List Opt} {a : Fwq.Args}
    (ha : Fwq.parse env.with_pthreads opts Fwq.Args.initial = .ok a)
    (ht : a.use_threads = true) (hn : a.numthreads < 2) :
    Fwq.main env opts =
      if env.samples_ok then
        ⟨Fwq.alloc_events a ++ Fwq.bits_events a ++ [Event.diag Msg.threads_required],
          Outcome.exit_failure⟩
      else ⟨Fwq.alloc_events a ++ [Event.diag Msg.assertion_failed], Outcome.abort⟩ := by
  simp only [Fwq.main, ha, Fwq.run, ht, hn, and_self, if_true]

/-- The trace of `main` of `ftq.c` for several threads with stream output. -/
theorem ftq_main_threads_stdout {env : Env} {opts : List Opt} {a : Ftq.Args}
    (ha : Ftq.parse env.with_pthreads opts Ftq.Args.initial = .ok a)
    (hn : 1 < a.numthreads) (hs : a.use_stdout = true) :
    Ftq.main env opts =
      if env.samples_ok then
        ⟨Ftq.alloc_events a ++ Ftq.bits_events a ++ [Event.diag Msg.no_stdout_with_threads],
          Outcome.exit_failure⟩
      else ⟨Ftq.alloc_events a ++ [Event.diag Msg.assertion_failed], Outcome.abort⟩ := by
  have ht := ftq_use_threads_of_many ha hn
  have h2 : ¬ a.numthreads < 2 := by omega
  simp only [Ftq.main, ha, Ftq.run, ht, hs, h2, and_self, and_false, if_true, if_false]

/-- The trace of `main` of `fwq.c` for several threads with stream output. -/
theorem fwq_main_threads_stdout {env : Env} {opts : List Opt} {a : Fwq.Args}
    (ha : Fwq.parse env.with_pthreads opts Fwq.Args.initial = .ok a)
    (hn : 1 < a.numthreads) (hs : a.use_stdout = true) :
    Fwq.main env opts =
      if env.samples_ok then
        ⟨Fwq.alloc_events a ++ Fwq.bits_events a ++ [Event.diag Msg.no_stdout_with_threads],
          Outcome.exit_failure⟩
      else ⟨Fwq.alloc_events a ++ [Event.diag Msg.assertion_failed], Outcome.abort⟩ := by
  have ht := fwq_use_threads_of_many ha hn
  have h2 : ¬ a.numthreads < 2 := by omega
  simp only [Fwq.main, ha, Fwq.run, ht, hs, h2, and_self, and_false, if_true, if_false]

/-! ### Supporting lemmas: where the interval or work length is assigned -/

theorem create_all_no_length (env : Env) (v : Option Int) :
    ∀ l : List Nat, Event.set_length v ∉ (create_all env l).1 := by
  intro l
  induction l with
  | nil => simp [create_all]
  | cons i rest ih =>
    simp only [create_all]
    split_ifs
    · simpa using ih
    · simp

theorem join_all_no_length (env : Env) (v : Option Int) :
    ∀ l : List Nat, Event.set_length v ∉ (join_all env l).1 := by
  intro l
  induction l with
  | nil => simp [join_all]
  | cons i rest ih =>
    simp only [join_all]
    split_ifs
    · simpa using ih
    · simp

theorem sampling_no_length (env : Env) (numthreads : Int) (use_threads : Bool)
    (v : Option Int) : Event.set_length v ∉ (sampling env numthreads use_threads).1 := by
  have hc := create_all_no_length env v (List.range' 1 (numthreads.toNat - 1))
  have hj := join_all_no_length env v (List.range' 1 (numthreads.toNat - 1))
  unfold sampling
  dsimp only
  split_ifs <;> simp [hc, hj]

theorem fwq_sampling_no_length (env : Env) (numthreads : Int) (use_threads : Bool)
    (v : Option Int) : Event.set_length v ∉ (Fwq.sampling env numthreads use_threads).1 := by
  have hc := create_all_no_length env v (List.range' 1 (numthreads.toNat - 1))
  have hj := join_all_no_length env v (List.range' 1 (numthreads.toNat - 1))
  unfold Fwq.sampling
  dsimp only
  split_ifs <;> (try split) <;> simp [hc, hj]

theorem ftq_write_files_no_length (env : Env) (n : Nat) (v : Option Int) :
    ∀ l : List Nat, Event.set_length v ∉ (Ftq.write_files env n l).1 := by
  intro l
  induction l with
  | nil => simp [Ftq.write_files]
  | cons j rest ih =>
    simp only [Ftq.write_files]
    split_ifs <;> simp [ih]

theorem fwq_write_files_no_length (env : Env) (n : Nat) (v : Option Int) :
    ∀ l : List Nat, Event.set_length v ∉ (Fwq.write_files env n l).1 := by
  intro l
  induction l with
  | nil => simp [Fwq.write_files]
  | cons j rest ih =>
    simp only [Fwq.write_files]
    split_ifs <;> simp [ih]

theorem ftq_output_no_length (env : Env) (n : Nat) (numthreads : Int) (use_stdout : Bool)
    (v : Option Int) :
    Event.set_length v ∉ (Ftq.output env n numthreads use_stdout).events := by
  have hw := ftq_write_files_no_length env n v (List.range numthreads.toNat)
  unfold Ftq.output
  dsimp only
  split_ifs <;> simp [hw]

theorem fwq_output_no_length (env : Env) (n : Nat) (numthreads : Int) (use_stdout : Bool)
    (v : Option Int) :
    Event.set_length v ∉ (Fwq.output env n numthreads use_stdout).events := by
  have hw := fwq_write_files_no_length env n v (List.range numthreads.toNat)
  unfold Fwq.output
  dsimp only
  split_ifs <;> simp [hw]

theorem ftq_parse_error_no_length (wp : Bool) (v : Option Int) :
    ∀ (opts : List Opt) (a0 : Ftq.Args) (ev : List Event),
      Ftq.parse wp opts a0 = .error ev → Event.set_length v ∉ ev := by
  intro opts
  induction opts with
  | nil => intro a0 ev h; simp [Ftq.parse] at h
  | cons o rest ih =>
    intro a0 ev h
    cases o <;> simp only [Ftq.parse] at h
    case t x =>
      split_ifs at h
      · exact ih _ _ h
      · cases h; simp
    case w x => cases h; simp
    case h => cases h; simp
    all_goals exact ih _ _ h

theorem fwq_parse_error_no_length (wp : Bool) (v : Option Int) :
    ∀ (opts : List Opt) (a0 : Fwq.Args) (ev : List Event),
      Fwq.parse wp opts a0 = .error ev → Event.set_length v ∉ ev := by
  intro opts
  induction opts with
  | nil => intro a0 ev h; simp [Fwq.parse] at h
  | cons o rest ih =>
    intro a0 ev h
    cases o <;> simp only [Fwq.parse] at h
    case t x =>
      split_ifs at h
      · exact ih _ _ h
      · cases h; simp
    case i x => cases h; simp
    case h => cases h; simp
    all_goals exact ih _ _ h

/-- Every assignment of the interval length in a run of `main` of `ftq.c` is
`1 << interval_bits` on checked bits. -/
theorem ftq_main_length {env : Env} {opts : List Opt} {v : Option Int}
    (h : Event.set_length v ∈ (Ftq.main env opts).events) :
    ∃ b : Int, v = shl_one (Ftq.check_bits b) := by
  unfold Ftq.main at h
  cases hp : Ftq.parse env.with_pthreads opts Ftq.Args.initial with
  | error ev =>
    rw [hp] at h
    exact absurd h (ftq_parse_error_no_length _ v _ _ _ hp)
  | ok a =>
    rw [hp] at h
    refine ⟨a.interval_bits, ?_⟩
    have hs := sampling_no_length env a.numthreads a.use_threads v
    have ho := ftq_output_no_length env (Ftq.check_samples a.numsamples) a.numthreads
      a.use_stdout v
    simp only [Ftq.run, Ftq.alloc_events, Ftq.bits_events, Ftq.measure] at h
    split_ifs at h <;> simp at h
    all_goals (split at h <;> simp_all)

/-- Every assignment of the work length in a run of `main` of `fwq.c` is
`1 << work_bits` on checked bits. -/
theorem fwq_main_length {env : Env} {opts : List Opt} {v : Option Int}
    (h : Event.set_length v ∈ (Fwq.main env opts).events) :
    ∃ b : Int, v = shl_one (Fwq.check_bits b) := by
  unfold Fwq.main at h
  cases hp : Fwq.parse env.with_pthreads opts Fwq.Args.initial with
  | error ev =>
    rw [hp] at h
    exact absurd h (fwq_parse_error_no_length _ v _ _ _ hp)
  | ok a =>
    rw [hp] at h
    refine ⟨a.work_bits, ?_⟩
    have hs := fwq_sampling_no_length env a.numthreads a.use_threads v
    have ho := fwq_output_no_length env (Fwq.check_samples a.numsamples) a.numthreads
      a.use_stdout v
    simp only [Fwq.run, Fwq.alloc_events, Fwq.bits_events, Fwq.measure] at h
    split_ifs at h <;> simp at h
    all_goals (split at h <;> simp_all)

/-- A run of `ftq -i b` with every library call succeeding assigns the interval
length from the checked bits. -/
theorem ftq_main_sets_length (b : Int) :
    Event.set_length (shl_one (Ftq.check_bits b)) ∈ (Ftq.main env_ok [Opt.i b]).events := by
  simp [Ftq.main, Ftq.parse, Ftq.run, Ftq.measure, sampling, env_ok, Ftq.Args.initial]

/-- A run of `fwq -w b` with every library call succeeding assigns the work
length from the checked bits. -/
theorem fwq_main_sets_length (b : Int) :
    Event.set_length (shl_one (Fwq.check_bits b)) ∈ (Fwq.main env_ok [Opt.w b]).events := by
  simp [Fwq.main, Fwq.parse, Fwq.run, Fwq.measure, Fwq.sampling, env_ok, Fwq.Args.initial]

/-- The shift `1 << bits` on checked bits is defined and is a power of two
with exponent in `[3, 30]`. -/
theorem shl_checked (b : Int) :
    ∃ k : Nat, 3 ≤ k ∧ k ≤ 30 ∧ shl_one (Ftq.check_bits b) = some ((2 : Int) ^ k) ∧
      shl_one (Fwq.check_bits b) = some ((2 : Int) ^ k) := by
  by_cases hb : b > 30 ∨ b < 3
  · refine ⟨30, by omega, le_refl _, ?_, ?_⟩
    · simp [Ftq.check_bits, Ftq.MAX_BITS, Ftq.MIN_BITS, hb, shl_one]
    · simp [Fwq.check_bits, Fwq.MAX_BITS, Fwq.MIN_BITS, hb, shl_one]
  · have h1 : 3 ≤ b := by omega
    have h2 : b ≤ 30 := by omega
    refine ⟨b.toNat, by omega, by omega, ?_, ?_⟩
    · simp only [Ftq.check_bits, Ftq.MAX_BITS, Ftq.MIN_BITS, hb, if_false, shl_one]
      rw [if_pos (by omega)]
    · simp only [Fwq.check_bits, Fwq.MAX_BITS, Fwq.MIN_BITS, hb, if_false, shl_one]
      rw [if_pos (by omega)]

/-! ### Supporting lemmas: the buffer after the stores of a core -/

theorem apply_stores_not_mem : ∀ (l : List Store) (mem : Nat → Nat) (c : Nat),
    c ∉ l.map Store.cell → apply_stores mem l c = mem c := by
  intro l
  induction l with
  | nil => intro mem c _; rfl
  | cons s rest ih =>
    intro mem c hc
    simp only [List.map_cons, List.mem_cons, not_or] at hc
    simp only [apply_stores]
    rw [ih _ c hc.2, if_neg hc.1]

theorem apply_stores_append : ∀ (a b : List Store) (mem : Nat → Nat) (c : Nat),
    apply_stores mem (a ++ b) c = apply_stores (apply_stores mem a) b c := by
  intro a
  induction a with
  | nil => intro b mem c; rfl
  | cons s rest ih =>
    intro b mem c
    simp only [List.cons_append, apply_stores]
    exact ih b _ c

/-- When no two stores of a sequence go to the same cell, each cell stored to
holds the value of its store afterwards. -/
theorem apply_stores_nodup : ∀ (l : List Store) (mem : Nat → Nat),
    (l.map Store.cell).Nodup → ∀ s ∈ l, apply_stores mem l s.cell = s.value := by
  intro l
  induction l with
  | nil => intro mem _ s hs; cases hs
  | cons x rest ih =>
    intro mem hnd s hs
    simp only [List.map_cons, List.nodup_cons] at hnd
    simp only [apply_stores]
    rcases List.mem_cons.1 hs with h | h
    · subst h
      rw [apply_stores_not_mem rest _ _ hnd.1, if_pos rfl]
    · exact ih _ hnd.2 s h

/-- Adding the same offset modulo `2 ^ 64` keeps distinct indices below
`2 ^ 64` distinct. -/
theorem nodup_shifted (off a b : Nat) (h : a + b ≤ U64) :
    ((List.range' a b).map (fun j => (j + off) % U64)).Nodup := by
  refine List.Nodup.map_on ?_ (List.nodup_range' a b)
  intro x hx y hy hxy
  rw [List.mem_range'_1] at hx hy
  unfold U64 at h
  have hxy2 : (x + off) % 2 ^ 64 = (y + off) % 2 ^ 64 := hxy
  omega

theorem Ftq.mem_stores_of : ∀ (l : List Ftq.Sample) (s : Ftq.Sample), s ∈ l →
    (⟨s.ts_cell, s.ts⟩ : Store) ∈ Ftq.stores_of l ∧
    (⟨s.cnt_cell, s.cnt⟩ : Store) ∈ Ftq.stores_of l := by
  intro l
  induction l with
  | nil => intro s hs; cases hs
  | cons x rest ih =>
    intro s hs
    simp only [Ftq.stores_of, Ftq.Sample.stores, List.cons_append, List.nil_append,
      List.mem_cons]
    rcases List.mem_cons.1 hs with h | h
    · subst h
      exact ⟨Or.inl rfl, Or.inr (Or.inl rfl)⟩
    · exact ⟨Or.inr (Or.inr (ih s h).1), Or.inr (Or.inr (ih s h).2)⟩

/-- The cells of the stores of samples `first, ..., first + count - 1` of a
thread are the indices `2 * first, ..., 2 * (first + count) - 1` shifted by the
offset of the thread. -/
theorem Ftq.stores_of_cells (t : Int) (n : Nat) : ∀ (count first : Nat) (l : List Ftq.Sample),
    l.map Ftq.Sample.cells = Ftq.cells_from t n first count →
    (Ftq.stores_of l).map Store.cell =
      (List.range' (2 * first) (2 * count)).map
        (fun j => (j + int_to_ulong (Ftq.offset t n)) % U64) := by
  intro count
  induction count with
  | zero =>
    intro first l h
    simp only [Ftq.cells_from, List.range'_zero, List.map_nil, List.map_eq_nil_iff] at h
    subst h
    rfl
  | succ k ih =>
    intro first l h
    cases l with
    | nil => simp [Ftq.cells_from, List.range'_succ] at h
    | cons x rest =>
      simp only [Ftq.cells_from, List.range'_succ, List.map_cons, List.cons.injEq] at h
      have hrest := ih (first + 1) rest h.2
      have hx := h.1
      simp only [Ftq.Sample.cells, Prod.mk.injEq] at hx
      have e : 2 * (k + 1) = 2 * k + 1 + 1 := by ring
      simp only [Ftq.stores_of, Ftq.Sample.stores, List.cons_append, List.nil_append,
        List.map_cons, hrest, e, List.range'_succ, hx.1, hx.2, Ftq.ts_index, Ftq.cnt_index]
      have e1 : first * 2 = 2 * first := by ring
      have e2 : 2 * first + 1 + 1 = 2 * (first + 1) := by ring
      rw [e1, e2]

theorem Ftq.check_samples_le (r : Nat) : Ftq.check_samples r ≤ 2000000 := by
  unfold Ftq.check_samples Ftq.MAX_SAMPLES
  split_ifs <;> omega

theorem Fwq.check_samples_bounds (r : Nat) :
    1000 ≤ Fwq.check_samples r ∧ Fwq.check_samples r ≤ 2000000 := by
  unfold Fwq.check_samples Fwq.MAX_SAMPLES Fwq.MIN_SAMPLES
  simp only
  split_ifs <;> omega

/-- The cells of the sampling pass of `fwq_core` are pairwise distinct. -/
theorem Fwq.nodup_cells (clock : Nat → Nat) (t : Int) (n calls : Nat) (hn : n ≤ U64) :
    (((List.range n).map (Fwq.store_of clock t n calls)).map Store.cell).Nodup := by
  rw [List.map_map]
  refine List.Nodup.map_on ?_ (List.nodup_range n)
  intro x hx y hy hxy
  rw [List.mem_range] at hx hy
  unfold U64 at hn
  have hxy2 : (int_to_ulong (Fwq.offset t n) + x) % 2 ^ 64 =
      (int_to_ulong (Fwq.offset t n) + y) % 2 ^ 64 := hxy
  omega

/-! ### Supporting lemmas: the interval boundary -/

/-- Masking off the low `k` bits of a 64-bit value rounds it down to a
multiple of `2 ^ k`. -/
theorem and_high_mask (x k : Nat) (hx : x < 2 ^ 64) (hk : k ≤ 64) :
    x &&& (2 ^ 64 - 2 ^ k) = x / 2 ^ k * 2 ^ k := by
  have hm : 2 ^ 64 - 2 ^ k = 2 ^ k * (2 ^ (64 - k) - 1) := by
    rw [Nat.mul_sub, ← Nat.pow_add, Nat.mul_one]
    congr 2
    omega
  apply Nat.eq_of_testBit_eq
  intro i
  rw [Nat.testBit_and, hm, Nat.mul_comm (x / 2 ^ k), Nat.testBit_mul_pow_two,
    Nat.testBit_mul_pow_two, Nat.testBit_two_pow_sub_one, ← Nat.shiftRight_eq_div_pow,
    Nat.testBit_shiftRight]
  by_cases hik : k ≤ i
  · have e : k + (i - k) = i := by omega
    rw [e]
    by_cases hi : i < 64
    · have : i - k < 64 - k := by omega
      simp [hik, this]
    · have hxi : x.testBit i = false :=
        Nat.testBit_lt_two_pow (lt_of_lt_of_le hx (Nat.pow_le_pow_right (by norm_num) (by omega)))
      simp [hxi]
  · simp [hik]

/-- The boundary expression for an interval length `2 ^ k`, without overflow of
`t + 2 ^ k`: one interval length above `t` rounded down. -/
theorem Ftq.boundary_eq (k t : Nat) (hov : t + 2 ^ k < 2 ^ 64) :
    Ftq.boundary t (2 ^ k) = (t / 2 ^ k + 1) * 2 ^ k := by
  have hpos : 0 < 2 ^ k := Nat.two_pow_pos k
  have hk : k ≤ 64 := by
    by_contra hc
    have : 2 ^ 64 ≤ 2 ^ k := Nat.pow_le_pow_right (by norm_num) (by omega)
    omega
  unfold Ftq.boundary U64
  have e1 : (t + 2 ^ k) % 2 ^ 64 = t + 2 ^ k := Nat.mod_eq_of_lt hov
  have e2 : (2 ^ k + 2 ^ 64 - 1) % 2 ^ 64 = 2 ^ k - 1 := by
    have : 2 ^ k + 2 ^ 64 - 1 = (2 ^ k - 1) + 2 ^ 64 := by omega
    rw [this, Nat.add_mod_right, Nat.mod_eq_of_lt (by omega)]
  have e3 : 2 ^ 64 - 1 - (2 ^ k - 1) = 2 ^ 64 - 2 ^ k := by omega
  rw [e1, e2, e3, and_high_mask _ k hov hk, Nat.add_div_right _ hpos]

/-! ### Supporting lemmas: failures that the checks do not see -/

/-- The test `pthread_setaffinity_np(...) < 0` of `ftq_core` (line 100) does not
fire on a positive error number, the way that function reports a failure:
with the return value 22 nothing is written to the error stream, while a
negative value would be reported. -/
theorem ftq_error_number_not_reported :
    (Ftq.ftq_core (some 22) clock3 none 8 3 0 100).map (fun run => run.stderr) = some [] ∧
    (Ftq.ftq_core (some (-1)) clock3 none 8 3 0 100).map (fun run => run.stderr) =
      some [Msg.perror_setaffinity] := by
  constructor <;> decide

theorem int_to_ulong_neg (T : Int) (hneg : T < 0) (hint : -(2 ^ 31) ≤ T) :
    int_to_ulong T = 2 ^ 64 - (-T).toNat := by
  unfold int_to_ulong
  omega

/-- For a negative thread count (an `int`) and a sample count between 1 and
`MAX_SAMPLES`, the size that `main` passes to `malloc` for the sample buffer
wraps to at least `2 ^ 63` bytes, in `ftq.c` (line 282) and in `fwq.c`
(line 435). -/
theorem negative_threads_request (T : Int) (n : Nat) (hneg : T < 0) (hint : -(2 ^ 31) ≤ T)
    (hn1 : 1 ≤ n) (hn2 : n ≤ 2000000) :
    2 ^ 63 ≤ (8 * n * 2 * int_to_ulong T) % U64 ∧ 2 ^ 63 ≤ (8 * n * int_to_ulong T) % U64 := by
  rw [int_to_ulong_neg T hneg hint]
  have hm1 : 1 ≤ (-T).toNat := by omega
  have hm2 : (-T).toNat ≤ 2 ^ 31 := by omega
  generalize (-T).toNat = m at hm1 hm2
  have hp1 : 1 ≤ n * m := Nat.mul_pos hn1 hm1
  have hp2 : n * m ≤ 2000000 * 2 ^ 31 := Nat.mul_le_mul hn2 hm2
  have e1 : 8 * n * 2 * (2 ^ 64 - m) = 16 * n * 2 ^ 64 - 16 * (n * m) := by
    rw [Nat.mul_sub]; ring_nf
  have e2 : 8 * n * (2 ^ 64 - m) = 8 * n * 2 ^ 64 - 8 * (n * m) := by
    rw [Nat.mul_sub]; ring_nf
  rw [e1, e2]
  generalize n * m = p at hp1 hp2
  unfold U64
  constructor <;> omega

/-- A warm-up loop that is left by its `break` (the sample count is reached
within the remaining iterations) leaves `last` at the interval start of the
sample it stored last: the `last = getticks()` after the `break` is skipped. -/
theorem Ftq.warmup_leaves_last (clock : Nat → Nat) (ic : Option Nat) (L : Nat) (t : Int)
    (n fuel : Nat) : ∀ (remaining : Nat) (st st1 : Ftq.CoreState),
      Ftq.warmup clock ic L t n fuel remaining st = some st1 →
      1 ≤ remaining → n ≤ st.done + remaining →
      ∃ w, st1.stored.getLast? = some w ∧ w.ts = st1.last := by
  intro remaining
  induction remaining with
  | zero => intro st st1 _ h; omega
  | succ r ih =>
    intro st st1 h _ hn
    simp only [Ftq.warmup] at h
    cases hts : Ftq.take_sample clock ic t n fuel st with
    | none => rw [hts] at h; cases h
    | some s1 =>
      rw [hts] at h
      obtain ⟨count, calls, _, rfl⟩ := Ftq.take_sample_some hts
      simp only at h
      by_cases hd : st.done + 1 ≥ n
      · simp only [hd, if_true, Option.some.injEq] at h
        subst h
        exact ⟨_, List.getLast?_concat _, rfl⟩
      · simp only [hd, if_false] at h
        exact ih _ _ h (by omega) (by simp only [Ftq.refresh]; omega)

/-- The first sample stored by the sampling loop has the interval start the
loop was entered with. -/
theorem Ftq.steady_first (clock : Nat → Nat) (ic : Option Nat) (L : Nat) (t : Int)
    (n fuel : Nat) : ∀ (iters : Nat) (st st1 : Ftq.CoreState),
      Ftq.steady clock ic L t n fuel iters st = some st1 →
      ∃ x rest, st1.stored = st.stored ++ x :: rest ∧ x.ts = st.last := by
  intro iters
  induction iters with
  | zero =>
    intro st st1 h
    simp only [Ftq.steady] at h
    cases h
  | succ r ih =>
    intro st st1 h
    simp only [Ftq.steady] at h
    cases hts : Ftq.take_sample clock ic t n fuel st with
    | none => rw [hts] at h; cases h
    | some s1 =>
      rw [hts] at h
      obtain ⟨count, calls, _, rfl⟩ := Ftq.take_sample_some hts
      simp only at h
      by_cases hd : st.done + 1 ≥ n
      · simp only [hd, if_true, Option.some.injEq] at h
        subst h
        exact ⟨_, [], rfl, rfl⟩
      · simp only [hd, if_false] at h
        obtain ⟨x, rest, he, _⟩ := ih _ _ h
        refine ⟨⟨Ftq.ts_index t n st.done, st.last, Ftq.cnt_index t n st.done, count⟩,
          x :: rest, ?_, rfl⟩
        rw [he]
        simp [Ftq.refresh]

/-- For every sample count up to the 1000 warm-up iterations, every thread and
every timer, the first sample stored by the sampling pass of a returned
`ftq_core` carries the interval start of the last warm-up sample. -/
theorem Ftq.first_sample_stale {bind_ret : Option Int} {clock : Nat → Nat} {ic : Option Nat}
    {L n : Nat} {t : Int} {fuel : Nat} {run : Ftq.CoreRun} (hn : n ≤ 1000)
    (h : Ftq.ftq_core bind_ret clock ic L n t fuel = some run) :
    ∃ w s, run.warm.getLast? = some w ∧ run.steady.head? = some s ∧ s.ts = w.ts := by
  obtain ⟨st1, st2, hw, hst, hwarm, hsteady, _⟩ := Ftq.ftq_core_some h
  obtain ⟨w, hwl, hwt⟩ := Ftq.warmup_leaves_last clock ic L t n fuel 1000 _ _ hw
    (by norm_num) (by simpa using hn)
  obtain ⟨x, rest, hx, hxt⟩ := Ftq.steady_first clock ic L t n fuel fuel _ _ hst
  refine ⟨w, x, by rw [hwarm]; exact hwl, ?_, ?_⟩
  · rw [hsteady, hx]
    rfl
  · rw [hxt, hwt]

/-- C1 (evaluation at the failing input `ftq -t 2 -n 2`): thread 1's core
stores its two samples in cells 4, 5 and 6, 7, while the output loop of `main`
takes line 0 of thread 1's times file from cell 2 and line 0 of its counts file
from cell 3, which are the cells of thread 0's second sample. -/
theorem ftq_output_reads_wrong_cells :
    (Ftq.ftq_core none clock3 none 8 2 1 100).map
        (fun r => r.steady.map (fun s => (s.ts_cell, s.cnt_cell))) = some [(4, 5), (6, 7)] ∧
    (Ftq.ftq_core none clock3 none 8 2 0 100).map
        (fun r => r.steady.map (fun s => (s.ts_cell, s.cnt_cell))) = some [(0, 1), (2, 3)] ∧
    Ftq.times_cell 2 1 0 = 2 ∧ Ftq.counts_cell 2 1 0 = 3 ∧
    (Ftq.main env_ok [Opt.t 2, Opt.n 2]).events.drop 14 =
      [Event.open_times 1, Event.line 2, Event.line 4,
       Event.open_counts 1, Event.line 3, Event.line 5, Event.free_samples] := by
  refine ⟨?_, ?_, ?_, ?_, ?_⟩ <;> decide

/-- C2 (counterexample): a requested bit value of 2, below `MIN_BITS`, is
replaced by 30 in both programs, whereas clamping to the nearest bound gives 3. -/
theorem bits_below_minimum_become_maximum :
    Ftq.check_bits 2 = 30 ∧ Fwq.check_bits 2 = 30 ∧
    spec_clamp Ftq.MIN_BITS Ftq.MAX_BITS 2 = 3 ∧
    Ftq.check_bits 2 ≠ spec_clamp Ftq.MIN_BITS Ftq.MAX_BITS 2 ∧
    Fwq.check_bits 2 ≠ spec_clamp Fwq.MIN_BITS Fwq.MAX_BITS 2 := by
  decide

/-- C2 (amended): for every requested bit value `b`, the value used after
validation is `b` itself when `3 ≤ b ≤ 30` and `MAX_BITS = 30` otherwise, in
both programs; it agrees with clamping except below `MIN_BITS`. -/
theorem check_bits_eq (b : Int) :
    Ftq.check_bits b = (if 3 ≤ b ∧ b ≤ 30 then b else 30) ∧
    Fwq.check_bits b = (if 3 ≤ b ∧ b ≤ 30 then b else 30) ∧
    Ftq.check_bits b = (if b < 3 then 30 else spec_clamp Ftq.MIN_BITS Ftq.MAX_BITS b) ∧
    Fwq.check_bits b = (if b < 3 then 30 else spec_clamp Fwq.MIN_BITS Fwq.MAX_BITS b) := by
  unfold Ftq.check_bits Fwq.check_bits spec_clamp Ftq.MAX_BITS Ftq.MIN_BITS Fwq.MAX_BITS
    Fwq.MIN_BITS
  refine ⟨?_, ?_, ?_, ?_⟩ <;> split_ifs <;> omega

/-- C3 (evaluation at the failing input `ftq -n 0`): the sample count 0 passes
the sanity check of `main`, and the sampling pass of `ftq_core` stores one
sample, not zero. -/
theorem ftq_zero_count_stores_one_sample :
    Ftq.check_samples (int_to_ulong 0) = 0 ∧
    (Ftq.ftq_core none clock3 none 8 0 0 100).map (fun r => r.steady.length) = some 1 := by
  decide

/-- C4 (evaluation at the failing inputs): with `ftq -n 0` thread 0 stores to
cells 0 and 1 in both passes although its region and the whole buffer are
empty; and for thread 537 of `ftq -n 2000000` (thread 1074 of
`fwq -n 2000000`) the `int` offset wraps, so the first cell stored lies outside
the thread's region. -/
theorem stores_outside_region :
    (Ftq.ftq_core none clock3 none 8 0 0 100).map
      (fun r => (r.warm ++ r.steady).map (fun s => (s.ts_cell, s.cnt_cell))) =
        some [(0, 1), (0, 1)] ∧
    ¬ in_region (2 * 0) 0 0 ∧ ¬ in_region (2 * 0) 0 1 ∧
    Ftq.ts_index 537 2000000 0 = 2 ^ 64 - 2146967296 ∧
    ¬ in_region (2 * 2000000) 537 (Ftq.ts_index 537 2000000 0) ∧
    Fwq.index 1074 2000000 0 = 2 ^ 64 - 2146967296 ∧
    ¬ in_region 2000000 1074 (Fwq.index 1074 2000000 0) := by
  refine ⟨?_, ?_, ?_, ?_, ?_, ?_, ?_⟩ <;> decide

/-- C5 (counterexample): when `sched_setaffinity` returns -1 in `fwq_core`, the
core reports the failure and leaves the process with status 1; no pass runs,
and `main` of `fwq` ends with failure status without writing any output. -/
theorem fwq_bind_failure_is_fatal :
    Fwq.fwq_core (some (-1)) clock3 Fwq.Construct.portable 8 1000 0 8 =
      Fwq.CoreResult.exited 1 [Msg.failed_to_set_affinity 0] ∧
    Fwq.main env_unbound [] =
      ⟨[Event.malloc_samples 80000, Event.set_length (some (2 ^ 20)), Event.core 0,
        Event.diag (Msg.failed_to_set_affinity 0)], Outcome.exit_failure⟩ := by
  constructor <;> decide

/-- C5 (amended): in `ftq_core` a failed binding is not fatal: whatever value
`pthread_setaffinity_np` returns (zero, a positive error number or a negative
value), the core runs the same warm-up and sampling passes, with the same
stores and the same return, as a core that makes no affinity call, so that on a
timer advancing at every call it returns after both passes. In `fwq_core` a
failed binding (`sched_setaffinity` returning a negative value) is reported and
fatal: the core leaves the process with status 1 before any pass. Whether
`ftq_core` reports the failure is not part of this statement. -/
theorem bind_failure_handling (rf rw : Int) (hw : rw < 0) (clock : Nat → Nat)
    (ic : Option Nat) (c : Fwq.Construct) (L n : Nat) (wl : Int) (t : Int) :
    (∀ fuel, (Ftq.ftq_core (some rf) clock ic L n t fuel).map
        (fun run => (run.warm, run.steady, run.calls)) =
      (Ftq.ftq_core none clock ic L n t fuel).map
        (fun run => (run.warm, run.steady, run.calls))) ∧
    ((∀ k, k ≤ clock k) → n ≤ U64 →
      ∃ run, Ftq.ftq_core (some rf) clock ic L n t U64 = some run ∧
        run.steady.length = max n 1) ∧
    (∀ fuel, Fwq.fwq_core (some rw) clock c wl n t fuel =
      Fwq.CoreResult.exited 1 [Msg.failed_to_set_affinity t]) := by
  refine ⟨?_, ?_, ?_⟩
  · intro fuel
    unfold Ftq.ftq_core
    simp only
    cases Ftq.warmup clock ic L t n fuel 1000
        { last := clock 0, endinterval := Ftq.boundary (clock 0) L, done := 0, calls := 1,
          stored := [] } with
    | none => rfl
    | some st1 =>
      simp only
      cases Ftq.steady clock ic L t n fuel fuel { st1 with done := 0, stored := [] } with
      | none => rfl
      | some st2 => rfl
  · intro hclock hn
    obtain ⟨run, hrun⟩ := Ftq.ftq_core_returns (some rf) clock hclock ic L n t hn
    exact ⟨run, hrun, (Ftq.ftq_core_cells hrun).2.2⟩
  · intro fuel
    unfold Fwq.fwq_core
    simp only [hw, if_true]

/-- C5 (instance): `pthread_setaffinity_np` returning the error number 22 in
`ftq_core` and `sched_setaffinity` returning -1 in `fwq_core`, for thread 0 on
the timer `clock3`. -/
theorem bind_failure_handling_witness :
    (-1 : Int) < 0 ∧
    (∀ fuel, (Ftq.ftq_core (some 22) clock3 none 8 3 0 fuel).map
        (fun run => (run.warm, run.steady, run.calls)) =
      (Ftq.ftq_core none clock3 none 8 3 0 fuel).map
        (fun run => (run.warm, run.steady, run.calls))) ∧
    (∀ fuel, Fwq.fwq_core (some (-1)) clock3 Fwq.Construct.portable 8 3 0 fuel =
      Fwq.CoreResult.exited 1 [Msg.failed_to_set_affinity 0]) :=
  ⟨by decide,
    (bind_failure_handling 22 (-1) (by decide) clock3 none Fwq.Construct.portable 8 3 8 0).1,
    (bind_failure_handling 22 (-1) (by decide) clock3 none Fwq.Construct.portable 8 3 8 0).2.2⟩

/-- C6 (counterexample): for `-t 2 -s` both programs have already allocated the
sample buffer when they reject the configuration. -/
theorem stdout_rejection_follows_allocation :
    Ftq.main env_ok [Opt.t 2, Opt.s] =
      ⟨[Event.malloc_samples 320000, Event.diag Msg.no_stdout_with_threads],
        Outcome.exit_failure⟩ ∧
    Fwq.main env_ok [Opt.t 2, Opt.s] =
      ⟨[Event.malloc_samples 160000, Event.diag Msg.no_stdout_with_threads],
        Outcome.exit_failure⟩ := by
  decide

/-- C6 (amended): a configuration with more than one thread and stream output
makes `main` of both programs end with failure status before any thread is
created and before the sampling core runs, but after the sample buffer was
requested from `malloc`: the run ends with the fatal error on the mode
combination, or, when that allocation failed, at the assertion on it. -/
theorem threads_with_stdout_rejected (env : Env) (opts1 opts2 : List Opt)
    (a : Ftq.Args) (b : Fwq.Args)
    (ha : Ftq.parse env.with_pthreads opts1 Ftq.Args.initial = .ok a)
    (hb : Fwq.parse env.with_pthreads opts2 Fwq.Args.initial = .ok b)
    (hna : 1 < a.numthreads) (hsa : a.use_stdout = true)
    (hnb : 1 < b.numthreads) (hsb : b.use_stdout = true) :
    ((Ftq.main env opts1).outcome =
        (if env.samples_ok then Outcome.exit_failure else Outcome.abort) ∧
      (Ftq.main env opts1).events.getLast? =
        some (Event.diag
          (if env.samples_ok then Msg.no_stdout_with_threads else Msg.assertion_failed)) ∧
      (∀ e ∈ (Ftq.main env opts1).events, e.launches = false) ∧
      Event.malloc_samples
        ((8 * Ftq.check_samples a.numsamples * 2 * int_to_ulong a.numthreads) % U64) ∈
          (Ftq.main env opts1).events) ∧
    ((Fwq.main env opts2).outcome =
        (if env.samples_ok then Outcome.exit_failure else Outcome.abort) ∧
      (Fwq.main env opts2).events.getLast? =
        some (Event.diag
          (if env.samples_ok then Msg.no_stdout_with_threads else Msg.assertion_failed)) ∧
      (∀ e ∈ (Fwq.main env opts2).events, e.launches = false) ∧
      Event.malloc_samples
        ((8 * Fwq.check_samples b.numsamples * int_to_ulong b.numthreads) % U64) ∈
          (Fwq.main env opts2).events) := by
  have hma : Event.malloc_samples
      ((8 * Ftq.check_samples a.numsamples * 2 * int_to_ulong a.numthreads) % U64) ∈
        Ftq.alloc_events a := by
    unfold Ftq.alloc_events; simp
  have hmb : Event.malloc_samples
      ((8 * Fwq.check_samples b.numsamples * int_to_ulong b.numthreads) % U64) ∈
        Fwq.alloc_events b := by
    unfold Fwq.alloc_events; simp
  rw [ftq_main_threads_stdout ha hna hsa, fwq_main_threads_stdout hb hnb hsb]
  cases hok : env.samples_ok
  · simp only [Bool.false_eq_true, if_false, List.getLast?_append, List.getLast?_singleton,
      true_and]
    refine ⟨⟨rfl, ?_, List.mem_append_left _ hma⟩, ⟨rfl, ?_, List.mem_append_left _ hmb⟩⟩
    · intro e he
      rcases List.mem_append.1 he with h1 | h1
      · exact ftq_alloc_events_no_launch a e h1
      · simp only [List.mem_singleton] at h1; subst h1; rfl
    · intro e he
      rcases List.mem_append.1 he with h1 | h1
      · exact fwq_alloc_events_no_launch b e h1
      · simp only [List.mem_singleton] at h1; subst h1; rfl
  · simp only [if_true, List.getLast?_append, List.getLast?_singleton, true_and]
    refine ⟨⟨rfl, ?_, List.mem_append_left _ (List.mem_append_left _ hma)⟩,
      ⟨rfl, ?_, List.mem_append_left _ (List.mem_append_left _ hmb)⟩⟩
    · intro e he
      rcases List.mem_append.1 he with h1 | h1
      · rcases List.mem_append.1 h1 with h2 | h2
        · exact ftq_alloc_events_no_launch a e h2
        · exact ftq_bits_events_no_launch a e h2
      · simp only [List.mem_singleton] at h1; subst h1; rfl
    · intro e he
      rcases List.mem_append.1 he with h1 | h1
      · rcases List.mem_append.1 h1 with h2 | h2
        · exact fwq_alloc_events_no_launch b e h2
        · exact fwq_bits_events_no_launch b e h2
      · simp only [List.mem_singleton] at h1; subst h1; rfl

/-- C6 (instance): `-t 4 -s` for both programs, every library call succeeding. -/
theorem threads_with_stdout_rejected_witness :
    Ftq.parse env_ok.with_pthreads [Opt.t 4, Opt.s] Ftq.Args.initial =
      .ok { Ftq.Args.initial with numthreads := 4, use_threads := true, use_stdout := true } ∧
    Fwq.parse env_ok.with_pthreads [Opt.t 4, Opt.s] Fwq.Args.initial =
      .ok { Fwq.Args.initial with numthreads := 4, use_threads := true, use_stdout := true } ∧
    (Ftq.main env_ok [Opt.t 4, Opt.s]).outcome = Outcome.exit_failure ∧
    (Fwq.main env_ok [Opt.t 4, Opt.s]).outcome = Outcome.exit_failure ∧
    (∀ e ∈ (Ftq.main env_ok [Opt.t 4, Opt.s]).events, e.launches = false) ∧
    (∀ e ∈ (Fwq.main env_ok [Opt.t 4, Opt.s]).events, e.launches = false) :=
  have h := threads_with_stdout_rejected env_ok [Opt.t 4, Opt.s] [Opt.t 4, Opt.s]
    { Ftq.Args.initial with numthreads := 4, use_threads := true, use_stdout := true }
    { Fwq.Args.initial with numthreads := 4, use_threads := true, use_stdout := true }
    rfl rfl (by decide) rfl (by decide) rfl
  ⟨rfl, rfl, h.1.1, h.2.1, h.1.2.2.1, h.2.2.2.1⟩

/-- A configuration that declares multithreaded mode (`-t` given) with a thread
count below 2 never creates a thread or runs the sampling core: `main` of both
programs ends with the fatal error that more than one thread is required when
the earlier allocation of the sample buffer succeeded, and at the assertion on
that buffer when it did not. -/
theorem threads_below_two_rejected (env : Env) (opts1 opts2 : List Opt)
    (a : Ftq.Args) (b : Fwq.Args)
    (ha : Ftq.parse env.with_pthreads opts1 Ftq.Args.initial = .ok a)
    (hb : Fwq.parse env.with_pthreads opts2 Fwq.Args.initial = .ok b)
    (hta : a.use_threads = true) (hna : a.numthreads < 2)
    (htb : b.use_threads = true) (hnb : b.numthreads < 2) :
    ((Ftq.main env opts1).outcome =
        (if env.samples_ok then Outcome.exit_failure else Outcome.abort) ∧
      (Ftq.main env opts1).events.getLast? =
        some (Event.diag
          (if env.samples_ok then Msg.threads_required else Msg.assertion_failed)) ∧
      ∀ e ∈ (Ftq.main env opts1).events, e.launches = false) ∧
    ((Fwq.main env opts2).outcome =
        (if env.samples_ok then Outcome.exit_failure else Outcome.abort) ∧
      (Fwq.main env opts2).events.getLast? =
        some (Event.diag
          (if env.samples_ok then Msg.threads_required else Msg.assertion_failed)) ∧
      ∀ e ∈ (Fwq.main env opts2).events, e.launches = false) := by
  rw [ftq_main_few_threads ha hta hna, fwq_main_few_threads hb htb hnb]
  cases hok : env.samples_ok
  · simp only [Bool.false_eq_true, if_false, List.getLast?_append, List.getLast?_singleton,
      true_and]
    refine ⟨⟨rfl, ?_⟩, ⟨rfl, ?_⟩⟩
    · intro e he
      rcases List.mem_append.1 he with h1 | h1
      · exact ftq_alloc_events_no_launch a e h1
      · simp only [List.mem_singleton] at h1; subst h1; rfl
    · intro e he
      rcases List.mem_append.1 he with h1 | h1
      · exact fwq_alloc_events_no_launch b e h1
      · simp only [List.mem_singleton] at h1; subst h1; rfl
  · simp only [if_true, List.getLast?_append, List.getLast?_singleton, true_and]
    refine ⟨⟨rfl, ?_⟩, ⟨rfl, ?_⟩⟩
    · intro e he
      rcases List.mem_append.1 he with h1 | h1
      · rcases List.mem_append.1 h1 with h2 | h2
        · exact ftq_alloc_events_no_launch a e h2
        · exact ftq_bits_events_no_launch a e h2
      · simp only [List.mem_singleton] at h1; subst h1; rfl
    · intro e he
      rcases List.mem_append.1 he with h1 | h1
      · rcases List.mem_append.1 h1 with h2 | h2
        · exact fwq_alloc_events_no_launch b e h2
        · exact fwq_bits_events_no_launch b e h2
      · simp only [List.mem_singleton] at h1; subst h1; rfl

/-- The thread counts 1 (ftq) and 0 (fwq) with every library call succeeding:
both runs end with the fatal error on the thread count. -/
theorem threads_below_two_rejected_witness :
    Ftq.parse env_ok.with_pthreads [Opt.t 1] Ftq.Args.initial =
      .ok { Ftq.Args.initial with numthreads := 1, use_threads := true } ∧
    Fwq.parse env_ok.with_pthreads [Opt.t 0] Fwq.Args.initial =
      .ok { Fwq.Args.initial with numthreads := 0, use_threads := true } ∧
    (Ftq.main env_ok [Opt.t 1]).outcome = Outcome.exit_failure ∧
    (Fwq.main env_ok [Opt.t 0]).outcome = Outcome.exit_failure ∧
    (Ftq.main env_ok [Opt.t 1]).events.getLast? = some (Event.diag Msg.threads_required) ∧
    (∀ e ∈ (Ftq.main env_ok [Opt.t 1]).events, e.launches = false) ∧
    (∀ e ∈ (Fwq.main env_ok [Opt.t 0]).events, e.launches = false) :=
  have h := threads_below_two_rejected env_ok [Opt.t 1] [Opt.t 0]
    { Ftq.Args.initial with numthreads := 1, use_threads := true }
    { Fwq.Args.initial with numthreads := 0, use_threads := true }
    rfl rfl rfl (by decide) rfl (by decide)
  ⟨rfl, rfl, h.1.1, h.2.1, h.1.2.1, h.1.2.2, h.2.2.2⟩

/-- C7 (evaluation at the failing input `-t -1`): both programs request the
sample buffer before they check the thread count, and the negative count wraps
the size to `2 ^ 64 - 160000` bytes in ftq and `2 ^ 64 - 80000` bytes in fwq.
No allocation of `2 ^ 63` bytes or more succeeds, so `main` stops at the
assertion on the buffer: it aborts, and the fatal error that more than one
thread is required is never reached. -/
theorem negative_thread_count_aborts :
    Ftq.main env_null [Opt.t (-1)] =
      ⟨[Event.malloc_samples (2 ^ 64 - 160000), Event.diag Msg.assertion_failed],
        Outcome.abort⟩ ∧
    Fwq.main env_null [Opt.t (-1)] =
      ⟨[Event.malloc_samples (2 ^ 64 - 80000), Event.diag Msg.assertion_failed],
        Outcome.abort⟩ ∧
    2 ^ 63 ≤ 2 ^ 64 - 160000 ∧ 2 ^ 63 ≤ 2 ^ 64 - 80000 ∧
    Event.diag Msg.threads_required ∉ (Ftq.main env_null [Opt.t (-1)]).events ∧
    Event.diag Msg.threads_required ∉ (Fwq.main env_null [Opt.t (-1)]).events := by
  refine ⟨?_, ?_, ?_, ?_, ?_, ?_⟩ <;> decide

/-- C8: for every requested bit value `b` (any integer), `main` of `ftq -i b`
and of `fwq -w b` assigns to the interval length, respectively work length, a
defined `1 << bits` (no overflow of a 32-bit `int`) equal to `2 ^ k` for some
`3 ≤ k ≤ 30`; and in every run of either `main`, whatever the options and the
environment, each value assigned to that length is such a power of two, hence
lies in `[2 ^ MIN_BITS, 2 ^ MAX_BITS]`. -/
theorem length_is_power_of_two (b : Int) :
    (∃ k : Nat, 3 ≤ k ∧ k ≤ 30 ∧ (2 : Int) ^ k < 2 ^ 31 ∧
      Event.set_length (some ((2 : Int) ^ k)) ∈ (Ftq.main env_ok [Opt.i b]).events ∧
      Event.set_length (some ((2 : Int) ^ k)) ∈ (Fwq.main env_ok [Opt.w b]).events) ∧
    ∀ (env : Env) (opts : List Opt) (v : Option Int),
      (Event.set_length v ∈ (Ftq.main env opts).events ∨
        Event.set_length v ∈ (Fwq.main env opts).events) →
      ∃ k : Nat, 3 ≤ k ∧ k ≤ 30 ∧ v = some ((2 : Int) ^ k) ∧
        (2 : Int) ^ Ftq.MIN_BITS.toNat ≤ 2 ^ k ∧ (2 : Int) ^ k ≤ 2 ^ Ftq.MAX_BITS.toNat ∧
        (2 : Int) ^ k < 2 ^ 31 := by
  have small : ∀ k : Nat, k ≤ 30 → (2 : Int) ^ k < 2 ^ 31 := fun k h30 =>
    lt_of_le_of_lt (pow_le_pow_right₀ (by norm_num) h30) (by norm_num)
  constructor
  · obtain ⟨k, h3, h30, hf, hw⟩ := shl_checked b
    refine ⟨k, h3, h30, small k h30, ?_, ?_⟩
    · rw [← hf]; exact ftq_main_sets_length b
    · rw [← hw]; exact fwq_main_sets_length b
  · intro env opts v h
    have key : ∃ c : Int, v = shl_one (Ftq.check_bits c) ∨ v = shl_one (Fwq.check_bits c) := by
      rcases h with h | h
      · obtain ⟨c, hc⟩ := ftq_main_length h
        exact ⟨c, Or.inl hc⟩
      · obtain ⟨c, hc⟩ := fwq_main_length h
        exact ⟨c, Or.inr hc⟩
    obtain ⟨c, hc⟩ := key
    obtain ⟨k, h3, h30, hf, hw⟩ := shl_checked c
    have hv : v = some ((2 : Int) ^ k) := by
      rcases hc with hc | hc
      · rw [hc, hf]
      · rw [hc, hw]
    refine ⟨k, h3, h30, hv, ?_, ?_, small k h30⟩
    · exact pow_le_pow_right₀ (by norm_num) (by simpa [Ftq.MIN_BITS] using h3)
    · exact pow_le_pow_right₀ (by norm_num) (by simpa [Ftq.MAX_BITS] using h30)

/-- C8 (instance): `ftq -i 2 -s -n 1`, where the requested 2 bits are replaced
by 30 and the interval length is `2 ^ 30`. -/
theorem length_is_power_of_two_witness :
    (Event.set_length (some (2 ^ 30)) ∈ (Ftq.main env_ok [Opt.i 2, Opt.s, Opt.n 1]).events ∨
      Event.set_length (some (2 ^ 30)) ∈ (Fwq.main env_ok [Opt.i 2, Opt.s, Opt.n 1]).events) ∧
    ∃ k : Nat, 3 ≤ k ∧ k ≤ 30 ∧ some ((2 : Int) ^ 30) = some ((2 : Int) ^ k) ∧
      (2 : Int) ^ Ftq.MIN_BITS.toNat ≤ 2 ^ k ∧ (2 : Int) ^ k ≤ 2 ^ Ftq.MAX_BITS.toNat ∧
      (2 : Int) ^ k < 2 ^ 31 :=
  ⟨Or.inl (by decide),
    (length_is_power_of_two 2).2 env_ok [Opt.i 2, Opt.s, Opt.n 1] (some (2 ^ 30))
      (Or.inl (by decide))⟩

/-- C9: if the timer never goes back (each call of `getticks()` returns at
least the value of the call before), then in every returned run of `ftq_core`,
for every thread and sample count, the interval-start timestamps stored by the
sampling pass are non-decreasing in sample order, and every stored work count
is non-negative (it is an unsigned value); and if moreover the timer advances
at every call, `ftq_core` does return such a run. -/
theorem ftq_steady_timestamps_sorted (clock : Nat → Nat)
    (hmono : ∀ k, clock k ≤ clock (k + 1))
    (bind_ret : Option Int) (ic : Option Nat) (L n : Nat) (t : Int) :
    (∀ (fuel : Nat) (run : Ftq.CoreRun),
      Ftq.ftq_core bind_ret clock ic L n t fuel = some run →
        List.Pairwise (fun a b => a ≤ b) (run.steady.map Ftq.Sample.ts) ∧
        ∀ s ∈ run.steady, (0 : Int) ≤ (s.cnt : Int)) ∧
    ((∀ k, k ≤ clock k) → n ≤ U64 →
      ∃ run, Ftq.ftq_core bind_ret clock ic L n t U64 = some run ∧
        List.Pairwise (fun a b => a ≤ b) (run.steady.map Ftq.Sample.ts)) := by
  have part : ∀ (fuel : Nat) (run : Ftq.CoreRun),
      Ftq.ftq_core bind_ret clock ic L n t fuel = some run →
        List.Pairwise (fun a b => a ≤ b) (run.steady.map Ftq.Sample.ts) ∧
        ∀ s ∈ run.steady, (0 : Int) ≤ (s.cnt : Int) := by
    intro fuel run h
    obtain ⟨st1, st2, hw, hst, _, hsteady, _⟩ := Ftq.ftq_core_some h
    have hl1 : Ftq.last_from_clock clock st1 :=
      Ftq.warmup_last_from_clock clock ic L t n fuel 1000 _ _ hw ⟨0, Nat.lt_succ_self 0, rfl⟩
    have hs := Ftq.steady_sorted clock hmono ic L t n fuel fuel _ _ hst
      (show Ftq.last_from_clock clock { st1 with done := 0, stored := [] } from hl1)
      ⟨(by intro s hm; cases hm), List.Pairwise.nil⟩
    rw [hsteady]
    exact ⟨hs.2, fun s _ => Int.ofNat_nonneg _⟩
  refine ⟨part, ?_⟩
  intro hclock hn
  obtain ⟨run, hrun⟩ := Ftq.ftq_core_returns bind_ret clock hclock ic L n t hn
  exact ⟨run, hrun, (part _ _ hrun).1⟩

/-- C9 (instance): three samples of thread 0 on a timer advancing three ticks
per call. -/
theorem ftq_steady_timestamps_sorted_witness :
    (∀ k, clock3 k ≤ clock3 (k + 1)) ∧
    Ftq.ftq_core none clock3 none 8 3 0 100 = some run3 ∧
    (List.Pairwise (fun a b => a ≤ b) (run3.steady.map Ftq.Sample.ts) ∧
      ∀ s ∈ run3.steady, (0 : Int) ≤ (s.cnt : Int)) :=
  ⟨fun k => Nat.mul_le_mul_left 3 (Nat.le_succ k), by decide,
    (ftq_steady_timestamps_sorted clock3 (fun k => Nat.mul_le_mul_left 3 (Nat.le_succ k))
      none none 8 3 0).1 100 run3 (by decide)⟩

/-- C10 (evaluation at the failing input `fwq -n -1`): the negative count
becomes a huge `unsigned long`, is reported as exceeding the maximum and is
replaced by 2000000; clamping to the nearest bound gives 1000. -/
theorem fwq_negative_count_becomes_maximum :
    int_to_ulong (-1) = 2 ^ 64 - 1 ∧
    Fwq.samples_of_option (-1) = 2000000 ∧
    spec_clamp 1000 2000000 (-1) = 1000 ∧
    (Fwq.main env_ok [Opt.n (-1)]).events.take 2 =
      [Event.diag Msg.count_exceeds_maximum, Event.malloc_samples (8 * 2000000)] := by
  refine ⟨?_, ?_, ?_, ?_⟩ <;> decide

/-- C11 (counterexample): for the timestamp 16 and the interval length 8 the
boundary is 24, although 16 is itself a multiple of 8 that is at least 16. -/
theorem boundary_of_aligned_timestamp :
    Ftq.boundary 16 (2 ^ 3) = 24 ∧ ¬ smallest_multiple_ge (2 ^ 3) 16 (Ftq.boundary 16 (2 ^ 3)) := by
  have h : Ftq.boundary 16 (2 ^ 3) = 24 := by decide
  refine ⟨h, ?_⟩
  intro hs
  have := hs.2.2 16 (by decide) (le_refl _)
  rw [h] at this
  omega

/-- C11 (amended): for every timestamp `t` and interval length `L = 2 ^ bits`
(in particular for `3 ≤ bits ≤ 30`) with no 64-bit overflow of `t + L`, the boundary
`(t + L) & ~(L - 1)` is the smallest multiple of `L` strictly greater than `t`,
namely `(t / L + 1) * L`: it is the smallest multiple that is at least `t`
when `t` is not a multiple of `L`, and `t + L` when it is. -/
theorem boundary_next_multiple (bits t : Nat) (hov : t + 2 ^ bits < 2 ^ 64) :
    Ftq.boundary t (2 ^ bits) = (t / 2 ^ bits + 1) * 2 ^ bits ∧
    2 ^ bits ∣ Ftq.boundary t (2 ^ bits) ∧
    t < Ftq.boundary t (2 ^ bits) ∧
    (∀ m, 2 ^ bits ∣ m → t < m → Ftq.boundary t (2 ^ bits) ≤ m) ∧
    (¬ 2 ^ bits ∣ t → smallest_multiple_ge (2 ^ bits) t (Ftq.boundary t (2 ^ bits))) ∧
    (2 ^ bits ∣ t → Ftq.boundary t (2 ^ bits) = t + 2 ^ bits) := by
  have hpos : 0 < 2 ^ bits := Nat.two_pow_pos bits
  have hb := Ftq.boundary_eq bits t hov
  have hdm := Nat.div_add_mod t (2 ^ bits)
  have hml := Nat.mod_lt t hpos
  have hlt : t < (t / 2 ^ bits + 1) * 2 ^ bits := by
    rw [Nat.add_mul, Nat.one_mul, Nat.mul_comm]
    omega
  have hmin : ∀ m, 2 ^ bits ∣ m → t < m → (t / 2 ^ bits + 1) * 2 ^ bits ≤ m := by
    intro m hm htm
    obtain ⟨c, rfl⟩ := hm
    have hq : t / 2 ^ bits < c := by
      rw [Nat.div_lt_iff_lt_mul hpos, Nat.mul_comm]
      exact htm
    rw [Nat.mul_comm (2 ^ bits) c]
    exact Nat.mul_le_mul_right _ hq
  rw [hb]
  refine ⟨rfl, Dvd.intro_left _ rfl, hlt, hmin, ?_, ?_⟩
  · intro hnd
    refine ⟨Dvd.intro_left _ rfl, le_of_lt hlt, ?_⟩
    intro m hm htm
    rcases Nat.lt_or_eq_of_le htm with h | h
    · exact hmin m hm h
    · subst h
      exact absurd hm hnd
  · intro hd
    rw [Nat.add_mul, Nat.one_mul, Nat.div_mul_cancel hd]

/-- C11 (instance): 20 bits and the timestamp 3000000, which lies between the
multiples 2097152 and 3145728 of the interval length. -/
theorem boundary_next_multiple_witness :
    3000000 + 2 ^ 20 < 2 ^ 64 ∧
    Ftq.boundary 3000000 (2 ^ 20) = (3000000 / 2 ^ 20 + 1) * 2 ^ 20 ∧
    3000000 < Ftq.boundary 3000000 (2 ^ 20) :=
  ⟨by decide, (boundary_next_multiple 20 3000000 (by decide)).1,
    (boundary_next_multiple 20 3000000 (by decide)).2.2.1⟩

/-- For every sample count that passed the sanity check of `main` and every
thread, once the sampling core has returned, every cell stored to by the
warm-up pass was stored to again by the sampling pass, and each cell of the
sampling pass holds the value of its sampling-pass store (in `ftq_core`, where
the warm-up stops at the sample count, and in `fwq_core`, where the sample
count is at least the 1000 warm-up samples). This is about which store a cell
holds, not about when the stored value was measured. -/
theorem warmup_overwritten (r1 r2 : Nat) (bind1 bind2 : Option Int)
    (clock1 clock2 : Nat → Nat) (ic : Option Nat) (L : Nat) (c : Fwq.Construct) (wl : Int)
    (t1 t2 : Int) (fuel1 fuel2 : Nat) (run1 : Ftq.CoreRun) (run2 : Fwq.CoreRun)
    (h1 : Ftq.ftq_core bind1 clock1 ic L (Ftq.check_samples r1) t1 fuel1 = some run1)
    (h2 : Fwq.fwq_core bind2 clock2 c wl (Fwq.check_samples r2) t2 fuel2 =
      Fwq.CoreResult.returned run2) :
    ((∀ w ∈ Ftq.stores_of run1.warm, ∃ s ∈ Ftq.stores_of run1.steady, s.cell = w.cell) ∧
      (∀ mem, ∀ s ∈ Ftq.stores_of run1.steady,
        apply_stores mem (Ftq.stores_of run1.warm ++ Ftq.stores_of run1.steady) s.cell =
          s.value) ∧
      run1.steady.map Ftq.Sample.cells =
        Ftq.cells_from t1 (Ftq.check_samples r1) 0 (max (Ftq.check_samples r1) 1)) ∧
    ((∀ w ∈ run2.warm, ∃ s ∈ run2.steady, s.cell = w.cell) ∧
      (∀ mem, ∀ s ∈ run2.steady,
        apply_stores mem (run2.warm ++ run2.steady) s.cell = s.value) ∧
      run2.steady.map Store.cell =
        (List.range (Fwq.check_samples r2)).map (Fwq.index t2 (Fwq.check_samples r2))) := by
  constructor
  · obtain ⟨hs, hw, _⟩ := Ftq.ftq_core_cells h1
    have hle := Ftq.check_samples_le r1
    have cs := Ftq.stores_of_cells t1 _ _ 0 run1.steady hs
    have cw := Ftq.stores_of_cells t1 _ _ 0 run1.warm hw
    have hnd : ((Ftq.stores_of run1.steady).map Store.cell).Nodup := by
      rw [cs]
      exact nodup_shifted _ _ _ (by unfold U64; omega)
    refine ⟨?_, ?_, hs⟩
    · intro w hwm
      have hc : w.cell ∈ (Ftq.stores_of run1.warm).map Store.cell := List.mem_map.2 ⟨w, hwm, rfl⟩
      rw [cw] at hc
      obtain ⟨j, hj, hjc⟩ := List.mem_map.1 hc
      rw [List.mem_range'_1] at hj
      have hc2 : w.cell ∈ (Ftq.stores_of run1.steady).map Store.cell := by
        rw [cs]
        exact List.mem_map.2 ⟨j, by rw [List.mem_range'_1]; omega, hjc⟩
      obtain ⟨s, hsm, hsc⟩ := List.mem_map.1 hc2
      exact ⟨s, hsm, hsc⟩
    · intro mem s hsm
      rw [apply_stores_append]
      exact apply_stores_nodup _ _ hnd s hsm
  · obtain ⟨hw, hs, _⟩ := Fwq.fwq_core_stores h2
    obtain ⟨hlo, hhi⟩ := Fwq.check_samples_bounds r2
    have hnd : (run2.steady.map Store.cell).Nodup := by
      rw [hs]
      exact Fwq.nodup_cells clock2 t2 _ 2000 (by unfold U64; omega)
    refine ⟨?_, ?_, ?_⟩
    · intro w hwm
      rw [hw] at hwm
      obtain ⟨d, hd, rfl⟩ := List.mem_map.1 hwm
      rw [List.mem_range] at hd
      refine ⟨Fwq.store_of clock2 t2 (Fwq.check_samples r2) 2000 d, ?_, rfl⟩
      rw [hs]
      exact List.mem_map.2 ⟨d, List.mem_range.2 (by omega), rfl⟩
    · intro mem s hsm
      rw [apply_stores_append]
      exact apply_stores_nodup _ _ hnd s hsm
    · rw [hs, List.map_map]
      rfl

/-- Thread 0 of ftq with 3 samples on the timer `clock3`, and thread 0 of fwq
with the minimum of 1000 samples and a work length of 8: the cells of the
warm-up are stored to again. -/
theorem warmup_overwritten_witness :
    Ftq.ftq_core none clock3 none 8 (Ftq.check_samples 3) 0 100 = some run3 ∧
    Fwq.fwq_core none clock3 Fwq.Construct.portable 8 (Fwq.check_samples 0) 0 8 =
      Fwq.CoreResult.returned run1000 ∧
    (∀ w ∈ Ftq.stores_of run3.warm, ∃ s ∈ Ftq.stores_of run3.steady, s.cell = w.cell) ∧
    (∀ w ∈ run1000.warm, ∃ s ∈ run1000.steady, s.cell = w.cell) :=
  have e1 : Ftq.ftq_core none clock3 none 8 (Ftq.check_samples 3) 0 100 = some run3 := by
    decide
  have e2 : Fwq.fwq_core none clock3 Fwq.Construct.portable 8 (Fwq.check_samples 0) 0 8 =
      Fwq.CoreResult.returned run1000 :=
    Fwq.passes_returns clock3 Fwq.Construct.portable 8 1000 0 8 (by decide) (by decide)
  have h := warmup_overwritten 3 0 none none clock3 clock3 none 8 Fwq.Construct.portable 8
    0 0 100 8 run3 run1000 e1 e2
  ⟨e1, e2, h.1.1, h.2.1⟩

/-- C12 (evaluation at the failing input `ftq -n 2`): the warm-up loop is left
by its `break` before `last = getticks()`, and only `done` is reset, so the
sampling pass begins inside the last warm-up interval. With an interval of 64
ticks on the timer `clock100` the warm-up stores (100, 28) and (129, 63) and
the sampling pass stores (129, 1) and (194, 62): the buffer ends as
129, 1, 194, 62, whose sample 0 is the start of the last warm-up interval with
a count of one pass, not a measurement of a full interval. -/
theorem ftq_first_sample_from_warmup :
    Ftq.check_samples 2 = 2 ∧
    Ftq.ftq_core none clock100 none 64 2 0 100 = some run_stale ∧
    run_stale.warm.getLast? = some ⟨2, 129, 3, 63⟩ ∧
    run_stale.steady.head? = some ⟨0, 129, 1, 1⟩ ∧
    (List.range 4).map
      (apply_stores (fun _ => 0)
        (Ftq.stores_of run_stale.warm ++ Ftq.stores_of run_stale.steady)) =
      [129, 1, 194, 62] := by
  refine ⟨?_, ?_, ?_, ?_, ?_⟩ <;> decide

/-- C13: in the default (portable C) work construct of `fwq_core`, each pass of
the loop body (`ITERCOUNT` increments, then `ITERCOUNT - 1` decrements) raises
`count` by exactly 1, and for every work length `N = 2 ^ bits` with
`3 ≤ bits ≤ 30`, which is the value `1 << bits` that `main` assigns, the loop
started at `count = -N` ends with `count = 0` after exactly `N` passes: it
returns that result whenever it is given fuel for `N` passes and does not
finish on less. Every value `count` takes inside a pass fits a `long long`. -/
theorem default_work_countdown (bits : Nat) (h3 : 3 ≤ bits) (h30 : bits ≤ 30) :
    (∀ c : Int, Fwq.work_pass c = c + 1) ∧
    (∀ c : Int, Nat.iterate (fun x : Int => x + 1) Fwq.ITERCOUNT c = c + 32) ∧
    shl_one (bits : Int) = some ((2 : Int) ^ bits) ∧
    (∀ fuel, 2 ^ bits ≤ fuel →
      Fwq.work Fwq.Construct.portable fuel (-((2 : Int) ^ bits)) = some (0, 2 ^ bits)) ∧
    (∀ fuel, fuel < 2 ^ bits →
      Fwq.work Fwq.Construct.portable fuel (-((2 : Int) ^ bits)) = none) ∧
    (∀ c : Int, -((2 : Int) ^ bits) ≤ c → c < 0 → ∀ j, j ≤ Fwq.ITERCOUNT →
      -(2 : Int) ^ 63 ≤ Nat.iterate (fun x : Int => x + 1) j c ∧
      Nat.iterate (fun x : Int => x + 1) j c < 2 ^ 63 ∧
      -(2 : Int) ^ 63 ≤ Nat.iterate (fun x : Int => x - 1) j (c + 32) ∧
      Nat.iterate (fun x : Int => x - 1) j (c + 32) < 2 ^ 63) := by
  have hcast : ((2 : Int) ^ bits) = ((2 ^ bits : Nat) : Int) := by push_cast; rfl
  refine ⟨Fwq.work_pass_eq, ?_, ?_, ?_, ?_, ?_⟩
  · intro c
    rw [Fwq.iterate_incr]
    rfl
  · unfold shl_one
    rw [if_pos ⟨by omega, by omega⟩, Int.toNat_natCast]
  · intro fuel hf
    rw [hcast]
    exact Fwq.work_returns Fwq.Construct.portable (2 ^ bits) fuel (Nat.two_pow_pos bits) hf
  · intro fuel hf
    rw [hcast]
    unfold Fwq.work
    exact Fwq.countdown_short Fwq.work_pass Fwq.work_pass_eq fuel _ 0
      (by rw [neg_neg, Int.toNat_natCast]; exact hf)
  · intro c hlo hhi j hj
    have hp : (2 : Int) ^ bits ≤ 2 ^ 30 := pow_le_pow_right₀ (by norm_num) h30
    have hj2 : (j : Int) ≤ 32 := by
      have : j ≤ 32 := hj
      exact_mod_cast this
    have hj0 : (0 : Int) ≤ (j : Int) := Int.natCast_nonneg j
    rw [Fwq.iterate_incr, Fwq.iterate_decr]
    norm_num at hp ⊢
    refine ⟨?_, ?_, ?_, ?_⟩ <;> linarith

/-- C13 (instance): 3 bits, a work length of 8. -/
theorem default_work_countdown_witness :
    3 ≤ 3 ∧ 3 ≤ 30 ∧
    Fwq.work Fwq.Construct.portable 8 (-((2 : Int) ^ 3)) = some (0, 2 ^ 3) ∧
    Fwq.work Fwq.Construct.portable 7 (-((2 : Int) ^ 3)) = none :=
  ⟨by decide, by decide,
    (default_work_countdown 3 (by decide) (by decide)).2.2.2.1 8 (by decide),
    (default_work_countdown 3 (by decide) (by decide)).2.2.2.2.1 7 (by decide)⟩

end FWQ
